import Mathlib

/-!
A verification development for the interval-algebra core of bioframe
(`bioframe/arrops.py`): `arange_multi`, `overlap_intervals`,
`merge_intervals`, `complement_intervals`, `closest_intervals`.

Arrays are modelled as `List Int`.  numpy's stable sorts (`np.lexsort`) are
modelled as the unique permutation of indices sorted by the key tuple with the
original index as final tiebreak (which is exactly what a stable sort
produces).  Failure paths that the Python code can actually hit
(`np.repeat` with negative repeat counts, `np.lexsort` with keys of unequal
lengths, fancy indexing out of bounds, the explicit `ValueError` in
`arange_multi`) are modelled with `Except String`.
-/

namespace Arrops

/-- Elementwise sum prefix: `np.cumsum` (inclusive partial sums). -/
def cumsumFrom (acc : Int) : List Int → List Int
  | [] => []
  | x :: xs => (acc + x) :: cumsumFrom (acc + x) xs

/-- `np.cumsum`. -/
def cumsum (l : List Int) : List Int := cumsumFrom 0 l

/-- `np.repeat(xs, reps)` for parallel arrays.  numpy raises on negative
repeat counts; the checked variant `npRepeatChecked` models that.  This total
variant clamps negatives to zero and is used only where the repeat counts are
nonnegative by construction. -/
def npRepeat (xs : List Int) (reps : List Int) : List Int :=
  (List.zipWith (fun x r => List.replicate r.toNat x) xs reps).flatten

/-- `np.repeat` with numpy's rejection of negative repeat counts. -/
def npRepeatChecked (xs : List Int) (reps : List Int) : Except String (List Int) :=
  if reps.all (fun r => decide (0 ≤ r)) then .ok (npRepeat xs reps)
  else .error "repeats may not contain negative values"

/-- Fancy indexing `xs[idx]` with a `List Nat` index array that is in bounds
by construction (gathers through a sort permutation). -/
def npIndex (xs : List Int) (idx : List Nat) : List Int :=
  idx.map (fun i => xs.getD i 0)

/-- Fancy indexing `xs[idx]` where numpy would raise `IndexError` when an
index is out of bounds (signed indices below `-len` also raise; the code under
study only produces nonnegative indices, so negatives are rejected too). -/
def npIndexChecked (xs : List (Int × Int)) (idx : List Int) : Except String (List (Int × Int)) :=
  if idx.all (fun i => decide (0 ≤ i ∧ i.toNat < xs.length)) then
    .ok (idx.map (fun i => xs.getD i.toNat (0, 0)))
  else .error "index out of bounds"

/-- Boolean-mask selection `xs[mask]` for a mask array parallel to `xs`. -/
def maskSelect {α : Type} (xs : List α) (mask : List Bool) : List α :=
  ((xs.zip mask).filter (fun p => p.2)).map (fun p => p.1)

/-- `np.maximum.accumulate`, running maximum, seeded accumulator form. -/
def accumaxFrom (a : Int) : List Int → List Int
  | [] => [a]
  | e :: es => a :: accumaxFrom (max a e) es

/-- `np.maximum.accumulate`. -/
def accumax : List Int → List Int
  | [] => []
  | e :: es => accumaxFrom e es

/-- `np.searchsorted(l, v, "left")` on a sorted array: the number of
elements strictly below `v`. -/
def countLT (l : List Int) (v : Int) : Nat := l.countP (fun x => decide (x < v))

/-- `np.searchsorted(l, v, "right")` on a sorted array: the number of
elements at or below `v`. -/
def countLE (l : List Int) (v : Int) : Nat := l.countP (fun x => decide (x ≤ v))

/-- Strict lexicographic comparison of equal-length key tuples. -/
def lexLTb : List Int → List Int → Bool
  | a :: as, b :: bs => decide (a < b) || (decide (a = b) && lexLTb as bs)
  | _, _ => false

/-- The order a stable numpy sort induces on indices: key tuples compared
lexicographically, ties broken by the original index. -/
def keyLE (key : Nat → List Int) (p q : Nat) : Prop :=
  lexLTb (key p) (key q) = true ∨ (key p = key q ∧ p ≤ q)

instance (key : Nat → List Int) : DecidableRel (keyLE key) := by
  intro p q
  unfold keyLE
  infer_instance

/-- The permutation of `0..n-1` a stable numpy sort by `key` returns
(`np.lexsort` with the key tuple listed primary-first, and `np.argsort`
with a single-element key). -/
def argLexsort (n : Nat) (key : Nat → List Int) : List Nat :=
  List.insertionSort (keyLE key) (List.range n)

/-- `np.lexsort(keys)` as numpy takes it: `keys` listed with the primary key
LAST, all key arrays required to have one common length, which is also the
number of indices sorted.  Unequal key lengths raise `ValueError`. -/
def npLexsortChecked (keys : List (List Int)) : Except String (List Nat) :=
  match keys with
  | [] => .ok []
  | k :: ks =>
      if ks.all (fun k2 => decide (k2.length = k.length)) then
        .ok (argLexsort k.length (fun p => keys.reverse.map (fun kk => kk.getD p 0)))
      else .error "all keys need to be the same shape"

/-- `np.arange(n)` (an `Int` count; numpy returns an empty array for a
nonpositive count). -/
def arangeI (n : Int) : List Int := (List.range n.toNat).map Int.ofNat

/-!  ### Range Expander: `arange_multi`  -/

/-- The success path of `arange_multi` shared between the fallible entry
point and the internal call sites where the lengths are nonnegative by
construction: `cat_start + (arange(sum) - repeat(cumsum(l) - l, l))`,
mirroring the cumulative-sum trick of the source. -/
def arangeMultiCore (starts lengths : List Int) : List Int :=
  let cat_start := npRepeat starts lengths
  let shifted := List.zipWith (fun c l => c - l) (cumsum lengths) lengths
  let cat_counter :=
    List.zipWith (fun a b => a - b) (arangeI lengths.sum) (npRepeat shifted lengths)
  List.zipWith (fun a b => a + b) cat_start cat_counter

/-- `arange_multi(starts, stops=, lengths=)`.  The `np.isscalar(starts)`
broadcast branch is not modelled: the callers under study always pass array
starts.  The first failure numpy hits on a negative computed length is the
`np.repeat(starts, lengths)` call, modelled by `npRepeatChecked`. -/
def computedLengths (starts : List Int) :
    Option (List Int) → Option (List Int) → List Int
  | _, some l => l
  | some st, none => List.zipWith (fun b a => b - a) st starts
  | none, none => []

def arange_multi (starts : List Int) (stops : Option (List Int))
    (lengths : Option (List Int)) : Except String (List Int) :=
  if stops.isNone = lengths.isNone then
    .error "Either stops or lengths must be provided!"
  else
    match npRepeatChecked starts (computedLengths starts stops lengths) with
    | .error e => .error e
    | .ok _ => .ok (arangeMultiCore starts (computedLengths starts stops lengths))

/-- The concatenation of the integer ranges `[start_i, start_i + length_i)`
in group order: the specified meaning of the Range Expander. -/
def joinRanges (starts lengths : List Int) : List Int :=
  (starts.zip lengths).flatMap (fun p => (List.range p.2.toNat).map (fun t => p.1 + Int.ofNat t))

/-- `arange_multi(starts, stops)` restricted to its success path, used at the
internal call sites of `overlap_intervals` and the closest-interval search
where `stops - starts` is nonnegative by construction. -/
def arangeMulti2 (starts stops : List Int) : List Int :=
  arangeMultiCore starts (List.zipWith (fun b a => b - a) stops starts)

/-!  ### Overlap Join: `overlap_intervals`  -/

/-- Fancy indexing for the pair arrays. -/
def npIndexPair (xs : List (Int × Int)) (idx : List Nat) : List (Int × Int) :=
  idx.map (fun i => xs.getD i (0, 0))

/-- `np.lexsort([ends, starts])`: the stable sort permutation by
`(start, end)`, primary key `starts`. -/
def sortOrderSE (starts ends : List Int) : List Nat :=
  argLexsort starts.length (fun p => [starts.getD p 0, ends.getD p 0])

/-- The signed 1-based identities of `overlap_intervals`: `-(i+1)` for the
first set, `j+1` for the second. -/
def overlapSignedIds (n1 n2 : Nat) : List Int :=
  ((List.range n1).map (fun i => -(Int.ofNat i + 1))) ++
    ((List.range n2).map (fun j => Int.ofNat j + 1))

/-- `overlap_intervals(starts1, ends1, starts2, ends2)` translated step by
step: concatenate, tag with signed ids, jointly sort by `(start, end)`,
binary-search each end into the sorted starts, emit the per-position match
ranges via the Range Expander, drop same-sign pairs, normalize each pair
ascending, decode the signed 1-based ids, and sort the result by
`(id1, id2)`. -/
def overlap_intervals (s1 e1 s2 e2 : List Int) : List (Int × Int) :=
  let n1 := s1.length
  let n2 := s2.length
  let starts := s1 ++ s2
  let ends := e1 ++ e2
  let ids := overlapSignedIds n1 n2
  let order := sortOrderSE starts ends
  let S := npIndex starts order
  let E := npIndex ends order
  let I := npIndex ids order
  let matchEnds : List Nat := E.map (fun v => countLT S v)
  let pf := ((List.range (n1 + n2)).zip matchEnds).filter (fun p => decide (p.1 + 1 < p.2))
  let col1 := npRepeat (pf.map (fun p => I.getD p.1 0))
    (pf.map (fun p => Int.ofNat p.2 - Int.ofNat p.1 - 1))
  let col2 := (arangeMulti2 (pf.map (fun p => Int.ofNat p.1 + 1))
    (pf.map (fun p => Int.ofNat p.2))).map (fun q => I.getD q.toNat 0)
  let raw := col1.zip col2
  let kept := raw.filter (fun pr => decide (pr.1 * pr.2 ≤ 0))
  let flipped := kept.map (fun pr => if pr.1 ≤ pr.2 then pr else (pr.2, pr.1))
  let dec := flipped.map (fun pr => (pr.1 * (-1) - 1, pr.2 - 1))
  npIndexPair dec
    (argLexsort dec.length (fun r => [(dec.getD r (0, 0)).1, (dec.getD r (0, 0)).2]))

/-- The joint sort permutation of `overlap_intervals`. -/
def ovOrder (s1 e1 s2 e2 : List Int) : List Nat :=
  sortOrderSE (s1 ++ s2) (e1 ++ e2)

/-- The concatenated starts after the joint sort. -/
def ovS (s1 e1 s2 e2 : List Int) : List Int :=
  npIndex (s1 ++ s2) (ovOrder s1 e1 s2 e2)

/-- The concatenated ends after the joint sort. -/
def ovE (s1 e1 s2 e2 : List Int) : List Int :=
  npIndex (e1 ++ e2) (ovOrder s1 e1 s2 e2)

/-- The signed ids after the joint sort. -/
def ovI (s1 e1 s2 e2 : List Int) : List Int :=
  npIndex (overlapSignedIds s1.length s2.length) (ovOrder s1 e1 s2 e2)

/-- `match_ends = np.searchsorted(starts, ends, "left")` in sorted order. -/
def ovMatchEnds (s1 e1 s2 e2 : List Int) : List Nat :=
  (ovE s1 e1 s2 e2).map (fun v => countLT (ovS s1 e1 s2 e2) v)

/-- The `(match_start, match_end)` rows surviving the self-overlap mask. -/
def ovPF (s1 e1 s2 e2 : List Int) : List (Nat × Nat) :=
  ((List.range (s1.length + s2.length)).zip (ovMatchEnds s1 e1 s2 e2)).filter
    (fun p => decide (p.1 + 1 < p.2))

/-- The raw signed id rows of `overlap_intervals` before the same-set
filter. -/
def ovRaw (s1 e1 s2 e2 : List Int) : List (Int × Int) :=
  (npRepeat ((ovPF s1 e1 s2 e2).map (fun p => (ovI s1 e1 s2 e2).getD p.1 0))
    ((ovPF s1 e1 s2 e2).map (fun p => Int.ofNat p.2 - Int.ofNat p.1 - 1))).zip
  ((arangeMulti2 ((ovPF s1 e1 s2 e2).map (fun p => Int.ofNat p.1 + 1))
    ((ovPF s1 e1 s2 e2).map (fun p => Int.ofNat p.2))).map
      (fun q => (ovI s1 e1 s2 e2).getD q.toNat 0))

/-- The rows surviving the same-set sign filter. -/
def ovKept (s1 e1 s2 e2 : List Int) : List (Int × Int) :=
  (ovRaw s1 e1 s2 e2).filter (fun pr => decide (pr.1 * pr.2 ≤ 0))

/-- The kept rows with each row sorted ascending and the signed 1-based ids
decoded back to 0-based per-set indices. -/
def ovDec (s1 e1 s2 e2 : List Int) : List (Int × Int) :=
  ((ovKept s1 e1 s2 e2).map
    (fun pr => if pr.1 ≤ pr.2 then pr else (pr.2, pr.1))).map
      (fun pr => (pr.1 * (-1) - 1, pr.2 - 1))

/-!  ### Interval Merger: `merge_intervals`  -/

/-- The cluster-boundary test of `merge_intervals`: with a finite `min_dist`
the test `starts[1:] > ends[:-1] + min_dist`, with the `None` sentinel the
test `starts[1:] >= ends[:-1]` (against the accumulated running maximum of
the ends). -/
def borderTest (minDist : Option Int) (s e : Int) : Bool :=
  match minDist with
  | some d => decide (s > e + d)
  | none => decide (s ≥ e)

/-- The starts after the joint `(start, end)` sort. -/
def mergeSortedStarts (starts ends : List Int) : List Int :=
  npIndex starts (sortOrderSE starts ends)

/-- The ends after the joint `(start, end)` sort. -/
def mergeSortedEnds (starts ends : List Int) : List Int :=
  npIndex ends (sortOrderSE starts ends)

/-- `ends = np.maximum.accumulate(ends)` over the sorted ends. -/
def mergeAccEnds (starts ends : List Int) : List Int :=
  accumax (mergeSortedEnds starts ends)

/-- The boolean boundary array of `merge_intervals`: length n+1, first and
last entries true, interior entry i set by the boundary test between sorted
start i and accumulated end i-1. -/
def mergeBorders (starts ends : List Int) (minDist : Option Int) : List Bool :=
  match mergeSortedStarts starts ends with
  | [] => [true]
  | _ :: S2 =>
      true :: (List.zipWith (fun s e => borderTest minDist s e) S2
        (mergeAccEnds starts ends).dropLast) ++ [true]

/-- Booleans as numpy sums them. -/
def boolInt (b : Bool) : Int := if b then 1 else 0

/-- `cluster_ids_sorted = np.cumsum(cluster_borders)[:-1] - 1`. -/
def mergeIdsSorted (starts ends : List Int) (minDist : Option Int) : List Int :=
  ((cumsum ((mergeBorders starts ends minDist).map boolInt)).dropLast).map (fun x => x - 1)

/-- `merge_intervals(starts, ends, min_dist)`: the triple the source returns,
namely `(cluster_ids_sorted, cluster_starts, cluster_ends)`. -/
def merge_intervals (starts ends : List Int) (minDist : Option Int) :
    List Int × List Int × List Int :=
  let borders := mergeBorders starts ends minDist
  (mergeIdsSorted starts ends minDist,
   maskSelect (mergeSortedStarts starts ends) borders.dropLast,
   maskSelect (mergeAccEnds starts ends) (borders.drop 1))

/-- Scatter assignment `base[idx] = vals`. -/
def npScatter (base : List Int) (idx : List Nat) (vals : List Int) : List Int :=
  (idx.zip vals).foldl (fun acc p => acc.set p.1 p.2) base

/-- Lines 223-224 of the source: `cluster_ids = np.full(n, -1);
cluster_ids[order] = cluster_ids_sorted`, the input-order cluster ids.  The
source computes this value and then returns `cluster_ids_sorted` instead,
leaving it unused. -/
def mergeScatteredIds (starts ends : List Int) (minDist : Option Int) : List Int :=
  npScatter (List.replicate starts.length (-1)) (sortOrderSE starts ends)
    (mergeIdsSorted starts ends minDist)

/-!  ### Complement Engine: `complement_intervals`  -/

/-- `np.iinfo(np.int64).max`, the default upper bound. -/
def int64max : Int := 9223372036854775807

/-- The clip index `lo = np.searchsorted(merged_ends, bounds[0], "right")`. -/
def complementSliceLo (starts ends : List Int) (boundLo : Int) : Nat :=
  countLE (merge_intervals starts ends (some 0)).2.2 boundLo

/-- The clip index `hi = np.searchsorted(merged_starts, bounds[1], "left")`. -/
def complementSliceHi (starts ends : List Int) (boundHi : Int) : Nat :=
  countLT (merge_intervals starts ends (some 0)).2.1 boundHi

/-- `complement_starts = np.r_[bounds[0], merged_ends[lo:hi]]`. -/
def complementCs (starts ends : List Int) (boundLo boundHi : Int) : List Int :=
  boundLo :: (((merge_intervals starts ends (some 0)).2.2).drop
    (complementSliceLo starts ends boundLo)).take
    (complementSliceHi starts ends boundHi - complementSliceLo starts ends boundLo)

/-- `complement_ends = np.r_[merged_starts[lo:hi], bounds[1]]`. -/
def complementCe (starts ends : List Int) (boundLo boundHi : Int) : List Int :=
  ((((merge_intervals starts ends (some 0)).2.1).drop
    (complementSliceLo starts ends boundLo)).take
    (complementSliceHi starts ends boundHi - complementSliceLo starts ends boundLo))
  ++ [boundHi]

/-- The candidate gaps, as (start, end) rows. -/
def complementPairs (starts ends : List Int) (boundLo boundHi : Int) :
    List (Int × Int) :=
  (complementCs starts ends boundLo boundHi).zip
    (complementCe starts ends boundLo boundHi)

/-- `complement_starts[0] >= complement_ends[0]`: drop the degenerate
leading gap. -/
def complementDropHead (starts ends : List Int) (boundLo boundHi : Int) : Bool :=
  decide ((complementCs starts ends boundLo boundHi).getD 0 0
    ≥ (complementCe starts ends boundLo boundHi).getD 0 0)

/-- `complement_starts[-1] >= complement_ends[-1]`: drop the degenerate
trailing gap. -/
def complementDropTail (starts ends : List Int) (boundLo boundHi : Int) : Bool :=
  decide ((complementCs starts ends boundLo boundHi).getLastD 0
    ≥ (complementCe starts ends boundLo boundHi).getLastD 0)

/-- `complement_intervals(starts, ends, bounds)`: merge with `min_dist = 0`,
clip the merged spans to the bounds by binary search, and read the gaps off
the interleaved boundary arrays, dropping a degenerate leading or trailing
gap. -/
def complement_intervals (starts ends : List Int) (boundLo boundHi : Int) :
    List (Int × Int) :=
  let pairs := complementPairs starts ends boundLo boundHi
  let pairs := if complementDropTail starts ends boundLo boundHi
    then pairs.dropLast else pairs
  if complementDropHead starts ends boundLo boundHi then pairs.drop 1 else pairs

/-- `complement_intervals` with the default bounds `(0, np.iinfo(np.int64).max)`. -/
def complementDefault (starts ends : List Int) : List (Int × Int) :=
  complement_intervals starts ends 0 int64max

/-!  ### Nearest-Neighbor Finder: `closest_intervals`  -/

/-- The upstream sort of set 2: `np.argsort(ends2)` without a tie array
(numpy's default sort is not stable; ties are modelled as left in index
order), and the stable `np.lexsort([-tie_arr, ends2])` with one. -/
def closestUpOrder (ends2 : List Int) (tie : Option (List Int)) : List Nat :=
  match tie with
  | none => argLexsort ends2.length (fun p => [ends2.getD p 0])
  | some t => argLexsort ends2.length (fun p => [ends2.getD p 0, -(t.getD p 0)])

/-- The downstream sort of set 2: `np.argsort(starts2)` without a tie array,
and the stable `np.lexsort([tie_arr, starts2])` with one. -/
def closestDnOrder (starts2 : List Int) (tie : Option (List Int)) : List Nat :=
  match tie with
  | none => argLexsort starts2.length (fun p => [starts2.getD p 0])
  | some t => argLexsort starts2.length (fun p => [starts2.getD p 0, t.getD p 0])

/-- `_closest_intervals_nooverlap(starts1, ends1, starts2, ends2, tie_arr,
k_upstream, k_downstream)`: the two directional candidate passes. -/
def closest_intervals_nooverlap (s1 e1 s2 e2 : List Int) (tie : Option (List Int))
    (kUp kDn : Int) : List (Int × Int) × List (Int × Int) :=
  let n1 := s1.length
  let n2 := s2.length
  let up :=
    if 0 < kUp then
      let order := closestUpOrder e2 tie
      let ids2sorted := npIndex ((List.range n2).map Int.ofNat) order
      let e2sorted := npIndex e2 order
      let ue : List Nat := s1.map (fun v => countLE e2sorted v)
      let us : List Int := ue.map (fun u => max (Int.ofNat u - kUp) 0)
      let int1 := npRepeat ((List.range n1).map Int.ofNat)
        (List.zipWith (fun (u : Nat) (s : Int) => Int.ofNat u - s) ue us)
      let int2 := arangeMulti2 us (ue.map Int.ofNat)
      int1.zip (int2.map (fun q => ids2sorted.getD q.toNat 0))
    else []
  let dn :=
    if 0 < kDn then
      let order := closestDnOrder s2 tie
      let ids2sorted := npIndex ((List.range n2).map Int.ofNat) order
      let s2sorted := npIndex s2 order
      let ds : List Nat := e1.map (fun v => countLT s2sorted v)
      let de : List Int := ds.map (fun d0 => min (Int.ofNat d0 + kDn) (Int.ofNat n2))
      let int1 := npRepeat ((List.range n1).map Int.ofNat)
        (List.zipWith (fun (d0 : Nat) (e : Int) => e - Int.ofNat d0) ds de)
      let int2 := arangeMulti2 (ds.map Int.ofNat) de
      int1.zip (int2.map (fun q => ids2sorted.getD q.toNat 0))
    else []
  (up, dn)

/-- `closest_intervals(starts1, ends1, starts2, ends2, k, tie_arr,
ignore_overlaps, ignore_upstream, ignore_downstream)`.  The final
`np.lexsort` (which with a tie array receives the raw tie array as one of its
keys) and the final fancy-indexed selection (which indexes the candidate
array with positions derived from run boundaries) are the two operations
numpy can reject at runtime, hence the `Except`. -/
def closest_intervals (s1 e1 s2 e2 : List Int) (k : Int) (tie : Option (List Int))
    (ignoreOverlaps ignoreUp ignoreDn : Bool) : Except String (List (Int × Int)) :=
  let ud := closest_intervals_nooverlap s1 e1 s2 e2 tie
    (if ignoreUp then 0 else k) (if ignoreDn then 0 else k)
  let up := ud.1
  let dn := ud.2
  let upD := up.map (fun p => s1.getD p.1.toNat 0 - e2.getD p.2.toNat 0 + 1)
  let dnD := dn.map (fun p => s2.getD p.2.toNat 0 - e1.getD p.1.toNat 0 + 1)
  let ov := if ignoreOverlaps then [] else overlap_intervals s1 e1 s2 e2
  let ids := up ++ dn ++ ov
  let dists := upD ++ dnD ++ ov.map (fun _ => (0 : Int))
  let keys := match tie with
    | none => [ids.map (fun p => p.2), dists, ids.map (fun p => p.1)]
    | some t => [ids.map (fun p => p.2), t, dists, ids.map (fun p => p.1)]
  match npLexsortChecked keys with
  | .error e => .error e
  | .ok order =>
      let sortedIds := order.map (fun i => ids.getD i (0, 0))
      let mask := List.zipWith (fun (a b : Int × Int) => decide (a.1 ≠ b.1))
        sortedIds.dropLast (sortedIds.drop 1)
      let borderArr := true :: mask ++ [true]
      let pos : List Nat := ((List.range borderArr.length).zip borderArr).filterMap
        (fun p => if p.2 then some p.1 else none)
      let rs := pos.dropLast
      let re := pos.drop 1
      let lens := List.zipWith (fun (b a : Nat) => min k (Int.ofNat b - Int.ofNat a)) re rs
      let finalIdx := arangeMulti2 (rs.map Int.ofNat)
        (List.zipWith (fun (a : Nat) l => Int.ofNat a + l) rs lens)
      npIndexChecked sortedIds finalIdx

/-!  ### Specification-side notions used in the theorem statements  -/

/-- A coordinate is covered by an interval collection. -/
def coveredBy (x : Int) (ivs : List (Int × Int)) : Prop :=
  ∃ p ∈ ivs, p.1 ≤ x ∧ x < p.2

instance (x : Int) (ivs : List (Int × Int)) : Decidable (coveredBy x ivs) := by
  unfold coveredBy
  infer_instance

/-- Ascending (nonstrict) lexicographic order on id pairs. -/
def pairLexLE (a b : Int × Int) : Prop :=
  a.1 < b.1 ∨ (a.1 = b.1 ∧ a.2 ≤ b.2)

/-- One gap ends at or before the next begins: disjointness in ascending
order for half-open intervals. -/
def gapLE (g g2 : Int × Int) : Prop := g.2 ≤ g2.1

/-- The reference sweep used in the proofs about `merge_intervals`: consume
the sorted intervals left to right carrying the current cluster span
`(cs, ce)` (where `ce` is the running maximum of the ends seen so far), emit
the span at each boundary. -/
def spansRec (minDist : Option Int) (cs ce : Int) : List (Int × Int) → List (Int × Int)
  | [] => [(cs, ce)]
  | p :: rest =>
      if borderTest minDist p.1 ce then (cs, ce) :: spansRec minDist p.1 (max ce p.2) rest
      else spansRec minDist cs (max ce p.2) rest

/-- The cluster spans of a `min_dist = 0` merge, paired up. -/
def mergedSpanPairs (starts ends : List Int) : List (Int × Int) :=
  ((merge_intervals starts ends (some 0)).2.1).zip
    ((merge_intervals starts ends (some 0)).2.2)

/-!  ## Theorems  -/

/-!  ### Generic facts about the array primitives  -/

theorem cumsumFrom_eq_map (ls : List Int) : ∀ c : Int,
    cumsumFrom c ls = (cumsum ls).map (fun x => c + x) := by
  induction ls with
  | nil => intro c; rfl
  | cons x xs ih =>
      intro c
      show (c + x) :: cumsumFrom (c + x) xs
        = ((0 + x) :: cumsumFrom (0 + x) xs).map (fun y => c + y)
      simp only [zero_add, List.map_cons, ih x, ih (c + x), List.map_map]
      congr 1
      apply List.map_congr_left
      intro a _
      simp only [Function.comp_apply]
      ring

theorem cumsum_cons (x : Int) (xs : List Int) :
    cumsum (x :: xs) = x :: (cumsum xs).map (fun y => x + y) := by
  show (0 + x) :: cumsumFrom (0 + x) xs = _
  rw [zero_add, cumsumFrom_eq_map]

theorem npRepeat_nil (reps : List Int) : npRepeat [] reps = [] := by
  cases reps <;> rfl

theorem npRepeat_cons (x : Int) (xs : List Int) (r : Int) (rs : List Int) :
    npRepeat (x :: xs) (r :: rs) = List.replicate r.toNat x ++ npRepeat xs rs := rfl

theorem npRepeat_map (f : Int → Int) (xs reps : List Int) :
    npRepeat (xs.map f) reps = (npRepeat xs reps).map f := by
  induction xs generalizing reps with
  | nil => simp [npRepeat_nil, npRepeat]
  | cons x xs ih =>
      cases reps with
      | nil => rfl
      | cons r rs =>
          simp only [List.map_cons, npRepeat_cons, List.map_append, ih, List.map_replicate]

theorem length_npRepeat_eq (xs reps : List Int) (h : xs.length = reps.length) :
    (npRepeat xs reps).length = (reps.map Int.toNat).sum := by
  induction xs generalizing reps with
  | nil => cases reps with
      | nil => rfl
      | cons r rs => simp at h
  | cons x xs ih =>
      cases reps with
      | nil => simp at h
      | cons r rs =>
          simp only [npRepeat_cons, List.length_append, List.length_replicate,
            List.map_cons, List.sum_cons]
          rw [ih rs (by simpa using h)]

theorem arangeI_add (a b : Int) (ha : 0 ≤ a) (hb : 0 ≤ b) :
    arangeI (a + b) = arangeI a ++ (arangeI b).map (fun x => a + x) := by
  unfold arangeI
  rw [Int.toNat_add ha hb, List.range_add, List.map_append, List.map_map, List.map_map]
  congr 1
  apply List.map_congr_left
  intro t _
  simp only [Function.comp_apply, Int.ofNat_eq_coe]
  push_cast
  rw [Int.toNat_of_nonneg ha]

theorem zipWith_sub_map_both (c : Int) (A B : List Int) :
    List.zipWith (fun a b => a - b) (A.map (fun x => c + x)) (B.map (fun x => c + x))
      = List.zipWith (fun a b => a - b) A B := by
  induction A generalizing B with
  | nil => simp
  | cons a as ih =>
      cases B with
      | nil => simp
      | cons b bs => simp only [List.map_cons, List.zipWith_cons_cons, ih]; congr 1; ring

theorem zipWith_sub_map_fst (c : Int) (A B : List Int) :
    List.zipWith (fun a b => a - b) (A.map (fun x => c + x)) B
      = (List.zipWith (fun a b => a - b) A B).map (fun x => c + x) := by
  induction A generalizing B with
  | nil => simp
  | cons a as ih =>
      cases B with
      | nil => simp
      | cons b bs =>
          simp only [List.map_cons, List.zipWith_cons_cons, ih]
          congr 1
          ring

theorem zipWith_sub_replicate_zero (A : List Int) (n : Nat) (h : A.length = n) :
    List.zipWith (fun a b => a - b) A (List.replicate n 0) = A := by
  induction A generalizing n with
  | nil => simp
  | cons a as ih =>
      cases n with
      | zero => simp at h
      | succ m =>
          simp only [List.replicate_succ, List.zipWith_cons_cons, sub_zero]
          rw [ih m (by simpa using h)]

theorem zipWith_add_replicate_arange (s : Int) (n : Nat) :
    List.zipWith (fun a b => a + b) (List.replicate n s) (arangeI (Int.ofNat n))
      = (List.range n).map (fun t => s + Int.ofNat t) := by
  unfold arangeI
  rw [show (Int.ofNat n).toNat = n from rfl]
  induction n with
  | zero => rfl
  | succ m ih =>
      rw [List.replicate_succ', List.range_succ, List.map_append,
        List.zipWith_append _ _ _ _ _ (by simp), ih, List.map_append]
      rfl

theorem arangeMultiCore_eq_joinRanges (starts lengths : List Int)
    (hlen : starts.length = lengths.length) (hnn : ∀ l ∈ lengths, 0 ≤ l) :
    arangeMultiCore starts lengths = joinRanges starts lengths := by
  induction starts generalizing lengths with
  | nil =>
      cases lengths with
      | nil => rfl
      | cons l ls => simp at hlen
  | cons s ss ih =>
      cases lengths with
      | nil => simp at hlen
      | cons l ls =>
          have hl : 0 ≤ l := hnn l (by simp)
          have hls : ∀ x ∈ ls, 0 ≤ x := fun x hx => hnn x (by simp [hx])
          have hsum : 0 ≤ ls.sum := List.sum_nonneg hls
          have hlen2 : ss.length = ls.length := by simpa using hlen
          unfold arangeMultiCore
          simp only [List.sum_cons, npRepeat_cons, cumsum_cons]
          rw [show List.zipWith (fun c ll => c - ll)
              (l :: (cumsum ls).map (fun y => l + y)) (l :: ls)
              = 0 :: (List.zipWith (fun c ll => c - ll) (cumsum ls) ls).map
                  (fun x => l + x) by
            simp only [List.zipWith_cons_cons, sub_self]
            rw [zipWith_sub_map_fst]]
          rw [npRepeat_cons, npRepeat_map, arangeI_add l ls.sum hl hsum,
            List.zipWith_append (fun a b => a - b) (arangeI l) _
              (List.replicate l.toNat 0) _
              (by simp [arangeI, Int.toNat_of_nonneg hl]),
            zipWith_sub_replicate_zero (arangeI l) l.toNat (by simp [arangeI]),
            zipWith_sub_map_both,
            List.zipWith_append (fun a b => a + b) (List.replicate l.toNat s) _
              (arangeI l) _ (by simp [arangeI]),
            show arangeI l = arangeI (Int.ofNat l.toNat) from rfl,
            zipWith_add_replicate_arange]
          show _ ++ arangeMultiCore ss ls = joinRanges (s :: ss) (l :: ls)
          rw [ih ls hlen2 hls]
          show _ = ((s, l) :: ss.zip ls).flatMap _
          rw [List.flatMap_cons]
          rfl

theorem zipWith_sub_eq_map_zip (stops starts : List Int) :
    List.zipWith (fun b a => b - a) stops starts
      = (starts.zip stops).map (fun p => p.2 - p.1) := by
  induction stops generalizing starts with
  | nil => cases starts <;> rfl
  | cons b bs ih =>
      cases starts with
      | nil => rfl
      | cons a as => simp only [List.zipWith_cons_cons, List.zip_cons_cons,
          List.map_cons, ih]

/-- The fallible `arange_multi` agrees with its success-path core whenever
the computed lengths are nonnegative; this is the situation at every internal
call site of the other components. -/
theorem all_nonneg_of_zip_le (starts stops : List Int)
    (h : ∀ p ∈ starts.zip stops, p.1 ≤ p.2) :
    (List.zipWith (fun b a => b - a) stops starts).all (fun r => decide (0 ≤ r)) = true := by
  rw [List.all_eq_true]
  intro x hx
  rw [zipWith_sub_eq_map_zip] at hx
  rcases List.mem_map.mp hx with ⟨p, hp, rfl⟩
  simpa using Int.sub_nonneg.mpr (h p hp)

theorem computedLengths_some (starts : List Int) (stops : Option (List Int))
    (l : List Int) : computedLengths starts stops (some l) = l := by
  cases stops <;> rfl

theorem computedLengths_stops (starts st : List Int) :
    computedLengths starts (some st) none
      = List.zipWith (fun b a => b - a) st starts := rfl

theorem arange_multi_stops_ok (starts stops : List Int)
    (h : ∀ p ∈ starts.zip stops, p.1 ≤ p.2) :
    arange_multi starts (some stops) none = .ok (arangeMulti2 starts stops) := by
  unfold arange_multi npRepeatChecked
  rw [if_neg (by simp), computedLengths_stops,
    if_pos (all_nonneg_of_zip_le starts stops h)]
  rfl

/-- C8: the claim asserts that `arange_multi` never fails when exactly one of
stops/lengths is supplied.  It does: when a stop lies below its start the
computed length is negative and `np.repeat` rejects it. -/
theorem C8_range_expander_cex :
    arange_multi [3] (some [1]) none
      = .error "repeats may not contain negative values" := by rfl

/-- C8 (amended): `arange_multi` fails when both or neither of stops/lengths
are supplied, and also when a computed group length is negative; when exactly
one is supplied, the arrays are parallel, and every group length is
nonnegative, it succeeds with the concatenation of the per-group ranges
`[start_i, start_i + length_i)` in group order (zero-length groups
contributing nothing). -/
theorem C8_range_expander_amended (starts : List Int) :
    (∀ stops lengths : Option (List Int), stops.isNone = lengths.isNone →
        arange_multi starts stops lengths
          = .error "Either stops or lengths must be provided!")
    ∧ (∀ lengths : List Int, (∃ l ∈ lengths, l < 0) →
        arange_multi starts none (some lengths)
          = .error "repeats may not contain negative values")
    ∧ (∀ lengths : List Int, starts.length = lengths.length →
        (∀ l ∈ lengths, 0 ≤ l) →
        arange_multi starts none (some lengths) = .ok (joinRanges starts lengths))
    ∧ (∀ stops : List Int, starts.length = stops.length →
        (∀ p ∈ starts.zip stops, p.1 ≤ p.2) →
        arange_multi starts (some stops) none
          = .ok (joinRanges starts (List.zipWith (fun b a => b - a) stops starts))) := by
  refine ⟨?_, ?_, ?_, ?_⟩
  · intro stops lengths h
    unfold arange_multi
    rw [if_pos h]
  · intro lengths ⟨l, hl, hneg⟩
    unfold arange_multi npRepeatChecked
    rw [if_neg (fun hcon => Bool.noConfusion hcon), computedLengths_some,
      if_neg (by rw [Bool.not_eq_true, List.all_eq_false]; exact ⟨l, hl, by simpa using hneg⟩)]
  · intro lengths hlen hnn
    unfold arange_multi npRepeatChecked
    rw [if_neg (fun hcon => Bool.noConfusion hcon), computedLengths_some,
      if_pos (by rw [List.all_eq_true]; intro x hx; simpa using hnn x hx)]
    rw [arangeMultiCore_eq_joinRanges starts lengths hlen hnn]
  · intro stops hlen h
    have hnn : ∀ l ∈ List.zipWith (fun b a => b - a) stops starts, 0 ≤ l := by
      intro x hx
      rw [zipWith_sub_eq_map_zip] at hx
      rcases List.mem_map.mp hx with ⟨p, hp, rfl⟩
      exact Int.sub_nonneg.mpr (h p hp)
    unfold arange_multi npRepeatChecked
    rw [if_neg (by simp), computedLengths_stops,
      if_pos (all_nonneg_of_zip_le starts stops h)]
    rw [arangeMultiCore_eq_joinRanges starts _ (by simp [hlen]) hnn]

/-- C8 witness: the amended theorem applied at the docstring example. -/
theorem C8_range_expander_witness :
    arange_multi [1, 3, 4, 6] (some [1, 5, 7, 6]) none = .ok [3, 4, 4, 5, 6] := by
  rw [(C8_range_expander_amended [1, 3, 4, 6]).2.2.2 [1, 5, 7, 6] (by decide) (by decide)]
  rfl

/-!  ### The stable sort permutation  -/

theorem lexLTb_trans : ∀ a b c : List Int,
    lexLTb a b = true → lexLTb b c = true → lexLTb a c = true
  | a :: as, b :: bs, c :: cs, hab, hbc => by
      simp only [lexLTb, Bool.or_eq_true, Bool.and_eq_true, decide_eq_true_eq] at *
      rcases hab with hab | ⟨hab, hab2⟩ <;> rcases hbc with hbc | ⟨hbc, hbc2⟩
      · exact Or.inl (lt_trans hab hbc)
      · exact Or.inl (hbc ▸ hab)
      · exact Or.inl (hab ▸ hbc)
      · exact Or.inr ⟨hab.trans hbc, lexLTb_trans as bs cs hab2 hbc2⟩
  | [], b, c, hab, _ => by simp [lexLTb] at hab
  | _ :: _, [], c, hab, _ => by simp [lexLTb] at hab
  | _ :: _, _ :: _, [], _, hbc => by simp [lexLTb] at hbc

theorem lexLTb_total : ∀ a b : List Int, a.length = b.length →
    lexLTb a b = true ∨ a = b ∨ lexLTb b a = true
  | [], [], _ => Or.inr (Or.inl rfl)
  | [], _ :: _, h => by simp at h
  | _ :: _, [], h => by simp at h
  | a :: as, b :: bs, h => by
      rcases lt_trichotomy a b with hlt | heq | hgt
      · exact Or.inl (by simp [lexLTb, hlt])
      · rcases lexLTb_total as bs (by simpa using h) with h2 | h2 | h2
        · exact Or.inl (by simp [lexLTb, heq, h2])
        · exact Or.inr (Or.inl (by rw [heq, h2]))
        · exact Or.inr (Or.inr (by simp [lexLTb, heq.symm, h2]))
      · exact Or.inr (Or.inr (by simp [lexLTb, hgt]))

theorem keyLE_trans (key : Nat → List Int) :
    ∀ p q r, keyLE key p q → keyLE key q r → keyLE key p r := by
  intro p q r hpq hqr
  rcases hpq with hpq | ⟨hpq, hpq2⟩ <;> rcases hqr with hqr | ⟨hqr, hqr2⟩
  · exact Or.inl (lexLTb_trans _ _ _ hpq hqr)
  · exact Or.inl (hqr ▸ hpq)
  · exact Or.inl (hpq ▸ hqr)
  · exact Or.inr ⟨hpq.trans hqr, hpq2.trans hqr2⟩

theorem keyLE_total (key : Nat → List Int)
    (hlen : ∀ p q, (key p).length = (key q).length) (p q : Nat) :
    keyLE key p q ∨ keyLE key q p := by
  rcases lexLTb_total (key p) (key q) (hlen p q) with h | h | h
  · exact Or.inl (Or.inl h)
  · rcases Nat.le_total p q with hpq | hpq
    · exact Or.inl (Or.inr ⟨h, hpq⟩)
    · exact Or.inr (Or.inr ⟨h.symm, hpq⟩)
  · exact Or.inr (Or.inl h)

theorem argLexsort_perm (n : Nat) (key : Nat → List Int) :
    (argLexsort n key).Perm (List.range n) :=
  List.perm_insertionSort _ _

theorem argLexsort_length (n : Nat) (key : Nat → List Int) :
    (argLexsort n key).length = n := by
  rw [(argLexsort_perm n key).length_eq, List.length_range]

theorem mem_argLexsort (n : Nat) (key : Nat → List Int) (p : Nat) :
    p ∈ argLexsort n key ↔ p < n := by
  rw [(argLexsort_perm n key).mem_iff, List.mem_range]

theorem argLexsort_nodup (n : Nat) (key : Nat → List Int) :
    (argLexsort n key).Nodup :=
  (argLexsort_perm n key).nodup_iff.mpr (List.nodup_range n)

theorem argLexsort_pairwise (n : Nat) (key : Nat → List Int)
    (hlen : ∀ p q, (key p).length = (key q).length) :
    (argLexsort n key).Pairwise (keyLE key) := by
  haveI : IsTotal Nat (keyLE key) := ⟨keyLE_total key hlen⟩
  haveI : IsTrans Nat (keyLE key) := ⟨keyLE_trans key⟩
  exact List.sorted_insertionSort _ _

theorem argLexsort_eq_range (n : Nat) (key : Nat → List Int)
    (h : (List.range n).Pairwise (keyLE key)) : argLexsort n key = List.range n :=
  List.Sorted.insertionSort_eq h

theorem npIndex_length (xs : List Int) (idx : List Nat) :
    (npIndex xs idx).length = idx.length := by
  simp [npIndex]

theorem npIndex_getD (xs : List Int) (idx : List Nat) (p : Nat)
    (hp : p < idx.length) :
    (npIndex xs idx).getD p 0 = xs.getD (idx.getD p 0) 0 := by
  unfold npIndex
  rw [List.getD_eq_getElem?_getD, List.getD_eq_getElem?_getD idx,
    List.getElem?_map, List.getElem?_eq_getElem hp]
  rfl

/-!  ### Binary search on sorted arrays  -/

theorem countLT_le_length (S : List Int) (v : Int) : countLT S v ≤ S.length :=
  List.countP_le_length _

theorem countLE_le_length (S : List Int) (v : Int) : countLE S v ≤ S.length :=
  List.countP_le_length _

theorem lt_countLT_iff (S : List Int) (hS : S.Pairwise (fun a b => a ≤ b)) (v : Int) :
    ∀ q, q < S.length → (q < countLT S v ↔ S.getD q 0 < v) := by
  induction S with
  | nil => intro q hq; simp at hq
  | cons x xs ih =>
      rcases List.pairwise_cons.mp hS with ⟨hx, hxs⟩
      intro q hq
      by_cases hxv : x < v
      · have hstep : countLT (x :: xs) v = countLT xs v + 1 := by
          simp [countLT, List.countP_cons, hxv]
        rw [hstep]
        cases q with
        | zero => simpa using hxv
        | succ m =>
            rw [Nat.succ_lt_succ_iff]
            simpa using ih hxs m (by simpa using hq)
      · have hall : countLT (x :: xs) v = 0 := by
          simp only [countLT, List.countP_eq_zero]
          intro a ha
          rcases List.mem_cons.mp ha with rfl | ha
          · simpa using hxv
          · simp only [decide_eq_true_eq, not_lt]
            exact le_trans (not_lt.mp hxv) (hx a ha)
        rw [hall]
        simp only [Nat.not_lt_zero, false_iff, not_lt]
        cases q with
        | zero => simpa using not_lt.mp hxv
        | succ m =>
            have hm : m < xs.length := by simpa using hq
            have hxm : x ≤ xs.getD m 0 := by
              rw [List.getD_eq_getElem?_getD, List.getElem?_eq_getElem hm]
              exact hx _ (List.getElem_mem hm)
            simpa using le_trans (not_lt.mp hxv) hxm

theorem lt_countLE_iff (S : List Int) (hS : S.Pairwise (fun a b => a ≤ b)) (v : Int) :
    ∀ q, q < S.length → (q < countLE S v ↔ S.getD q 0 ≤ v) := by
  induction S with
  | nil => intro q hq; simp at hq
  | cons x xs ih =>
      rcases List.pairwise_cons.mp hS with ⟨hx, hxs⟩
      intro q hq
      by_cases hxv : x ≤ v
      · have hstep : countLE (x :: xs) v = countLE xs v + 1 := by
          simp [countLE, List.countP_cons, hxv]
        rw [hstep]
        cases q with
        | zero => simpa using hxv
        | succ m =>
            rw [Nat.succ_lt_succ_iff]
            simpa using ih hxs m (by simpa using hq)
      · have hall : countLE (x :: xs) v = 0 := by
          simp only [countLE, List.countP_eq_zero]
          intro a ha
          rcases List.mem_cons.mp ha with rfl | ha
          · simpa using hxv
          · simp only [decide_eq_true_eq, not_le]
            exact lt_of_lt_of_le (not_le.mp hxv) (hx a ha)
        rw [hall]
        simp only [Nat.not_lt_zero, false_iff, not_le]
        cases q with
        | zero => simpa using not_le.mp hxv
        | succ m =>
            have hm : m < xs.length := by simpa using hq
            have hxm : x ≤ xs.getD m 0 := by
              rw [List.getD_eq_getElem?_getD, List.getElem?_eq_getElem hm]
              exact hx _ (List.getElem_mem hm)
            simpa using lt_of_lt_of_le (not_le.mp hxv) hxm

/-!  ### Structural lemmas for the Merger  -/

theorem maskSelect_nil (mask : List Bool) : maskSelect ([] : List Int) mask = [] := by
  simp [maskSelect]

theorem maskSelect_cons_true {α : Type} (x : α) (xs : List α) (ms : List Bool) :
    maskSelect (x :: xs) (true :: ms) = x :: maskSelect xs ms := by
  simp [maskSelect]

theorem maskSelect_cons_false {α : Type} (x : α) (xs : List α) (ms : List Bool) :
    maskSelect (x :: xs) (false :: ms) = maskSelect xs ms := by
  simp [maskSelect]

theorem accumaxFrom_ne_nil (a : Int) (l : List Int) : accumaxFrom a l ≠ [] := by
  cases l <;> simp [accumaxFrom]

theorem accumaxFrom_length (a : Int) (l : List Int) :
    (accumaxFrom a l).length = l.length + 1 := by
  induction l generalizing a with
  | nil => rfl
  | cons e es ih => simp [accumaxFrom, ih]

theorem spansRec_ne_nil (d : Option Int) (cs ce : Int) (l : List (Int × Int)) :
    spansRec d cs ce l ≠ [] := by
  induction l generalizing cs ce with
  | nil => simp [spansRec]
  | cons p rest ih =>
      unfold spansRec
      by_cases hb : borderTest d p.1 ce = true
      · simp [hb]
      · simp only [Bool.not_eq_true] at hb
        simp [hb, ih]

theorem spansRec_head_fst (d : Option Int) (cs ce : Int) (l : List (Int × Int)) :
    ∃ ce1 rest1, spansRec d cs ce l = (cs, ce1) :: rest1 := by
  induction l generalizing ce with
  | nil => exact ⟨ce, [], rfl⟩
  | cons p rest ih =>
      unfold spansRec
      by_cases hb : borderTest d p.1 ce = true
      · exact ⟨ce, _, by rw [if_pos hb]⟩
      · rcases ih (max ce p.2) with ⟨ce1, rest1, hrec⟩
        exact ⟨ce1, rest1, by rw [if_neg hb]; exact hrec⟩

/-- The boolean-mask reading of cluster spans equals the reference sweep:
the starts component. -/
theorem maskSelect_spansRec_fst (d : Option Int) :
    ∀ (S2 E2 : List Int) (s0 a0 : Int), S2.length = E2.length →
    maskSelect (s0 :: S2)
        (true :: List.zipWith (fun s e => borderTest d s e) S2 (accumaxFrom a0 E2).dropLast)
      = (spansRec d s0 a0 (S2.zip E2)).map Prod.fst := by
  intro S2
  induction S2 with
  | nil =>
      intro E2 s0 a0 hlen
      have : E2 = [] := List.eq_nil_of_length_eq_zero (by simpa using hlen.symm)
      subst this
      simp [accumaxFrom, maskSelect, spansRec]
  | cons s1 S3 ih =>
      intro E2 s0 a0 hlen
      cases E2 with
      | nil => simp at hlen
      | cons e1 E3 =>
          have hlen2 : S3.length = E3.length := by simpa using hlen
          show maskSelect (s0 :: s1 :: S3)
              (true :: List.zipWith _ (s1 :: S3) (a0 :: accumaxFrom (max a0 e1) E3).dropLast)
            = (spansRec d s0 a0 ((s1, e1) :: S3.zip E3)).map Prod.fst
          rw [List.dropLast_cons_of_ne_nil (accumaxFrom_ne_nil _ _)]
          rw [List.zipWith_cons_cons, maskSelect_cons_true]
          unfold spansRec
          by_cases hb : borderTest d s1 a0 = true
          · rw [if_pos hb, List.map_cons, hb, maskSelect_cons_true]
            congr 1
            have h2 := ih E3 s1 (max a0 e1) hlen2
            rw [maskSelect_cons_true] at h2
            exact h2
          · rw [if_neg hb]
            rw [Bool.not_eq_true] at hb
            rw [hb, maskSelect_cons_false]
            have h2 := ih E3 s0 (max a0 e1) hlen2
            rw [maskSelect_cons_true] at h2
            rw [h2]

/-- The boolean-mask reading of cluster spans equals the reference sweep:
the ends component. -/
theorem maskSelect_spansRec_snd (d : Option Int) :
    ∀ (S2 E2 : List Int) (s0 a0 : Int), S2.length = E2.length →
    maskSelect (accumaxFrom a0 E2)
        ((List.zipWith (fun s e => borderTest d s e) S2 (accumaxFrom a0 E2).dropLast) ++ [true])
      = (spansRec d s0 a0 (S2.zip E2)).map Prod.snd := by
  intro S2
  induction S2 with
  | nil =>
      intro E2 s0 a0 hlen
      have : E2 = [] := List.eq_nil_of_length_eq_zero (by simpa using hlen.symm)
      subst this
      simp [accumaxFrom, maskSelect, spansRec]
  | cons s1 S3 ih =>
      intro E2 s0 a0 hlen
      cases E2 with
      | nil => simp at hlen
      | cons e1 E3 =>
          have hlen2 : S3.length = E3.length := by simpa using hlen
          show maskSelect (a0 :: accumaxFrom (max a0 e1) E3)
              ((List.zipWith _ (s1 :: S3) (a0 :: accumaxFrom (max a0 e1) E3).dropLast) ++ [true])
            = (spansRec d s0 a0 ((s1, e1) :: S3.zip E3)).map Prod.snd
          rw [List.dropLast_cons_of_ne_nil (accumaxFrom_ne_nil _ _)]
          rw [List.zipWith_cons_cons, List.cons_append]
          unfold spansRec
          by_cases hb : borderTest d s1 a0 = true
          · rw [if_pos hb, List.map_cons, hb, maskSelect_cons_true]
            congr 1
            exact ih E3 s1 (max a0 e1) hlen2
          · rw [if_neg hb]
            rw [Bool.not_eq_true] at hb
            rw [hb, maskSelect_cons_false]
            exact ih E3 s0 (max a0 e1) hlen2

theorem coveredBy_cons (x : Int) (g : Int × Int) (l : List (Int × Int)) :
    coveredBy x (g :: l) ↔ (g.1 ≤ x ∧ x < g.2) ∨ coveredBy x l := by
  unfold coveredBy
  constructor
  · rintro ⟨p, hp, h1, h2⟩
    rcases List.mem_cons.mp hp with rfl | hp
    · exact Or.inl ⟨h1, h2⟩
    · exact Or.inr ⟨p, hp, h1, h2⟩
  · rintro (⟨h1, h2⟩ | ⟨p, hp, h1, h2⟩)
    · exact ⟨g, List.mem_cons_self _ _, h1, h2⟩
    · exact ⟨p, List.mem_cons_of_mem _ hp, h1, h2⟩

theorem coveredBy_nil (x : Int) : ¬ coveredBy x [] := by
  rintro ⟨p, hp, _⟩
  simp at hp

theorem spansRec_snd_lb (d : Option Int) :
    ∀ (l : List (Int × Int)) (cs ce : Int), ∀ g ∈ spansRec d cs ce l, ce ≤ g.2 := by
  intro l
  induction l with
  | nil =>
      intro cs ce g hg
      rcases List.mem_singleton.mp hg with rfl
      exact le_refl _
  | cons p rest ih =>
      intro cs ce g hg
      unfold spansRec at hg
      by_cases hb : borderTest d p.1 ce = true
      · rw [if_pos hb] at hg
        rcases List.mem_cons.mp hg with rfl | hg
        · exact le_refl _
        · exact le_trans (le_max_left _ _) (ih _ _ g hg)
      · rw [if_neg hb] at hg
        exact le_trans (le_max_left _ _) (ih _ _ g hg)

theorem spansRec_snd_pairwise (d : Option Int) :
    ∀ (l : List (Int × Int)) (cs ce : Int),
      ((spansRec d cs ce l).map Prod.snd).Pairwise (fun a b => a ≤ b) := by
  intro l
  induction l with
  | nil => intro cs ce; simp [spansRec]
  | cons p rest ih =>
      intro cs ce
      unfold spansRec
      by_cases hb : borderTest d p.1 ce = true
      · rw [if_pos hb]
        rw [List.map_cons, List.pairwise_cons]
        refine ⟨?_, ih _ _⟩
        intro b hb2
        rcases List.mem_map.mp hb2 with ⟨g, hg, rfl⟩
        exact le_trans (le_max_left _ _) (spansRec_snd_lb d rest p.1 (max ce p.2) g hg)
      · rw [if_neg hb]
        exact ih _ _

theorem spansRec_fst_mem (d : Option Int) :
    ∀ (l : List (Int × Int)) (cs ce : Int), ∀ g ∈ spansRec d cs ce l,
      g.1 = cs ∨ g.1 ∈ l.map Prod.fst := by
  intro l
  induction l with
  | nil =>
      intro cs ce g hg
      rcases List.mem_singleton.mp hg with rfl
      exact Or.inl rfl
  | cons p rest ih =>
      intro cs ce g hg
      unfold spansRec at hg
      by_cases hb : borderTest d p.1 ce = true
      · rw [if_pos hb] at hg
        rcases List.mem_cons.mp hg with rfl | hg
        · exact Or.inl rfl
        · rcases ih _ _ g hg with h | h
          · exact Or.inr (by rw [h]; simp)
          · exact Or.inr (List.mem_cons_of_mem _ h)
      · rw [if_neg hb] at hg
        rcases ih _ _ g hg with h | h
        · exact Or.inl h
        · exact Or.inr (List.mem_cons_of_mem _ h)

theorem spansRec_fst_pairwise (d : Option Int) :
    ∀ (l : List (Int × Int)) (cs ce : Int),
      (cs :: l.map Prod.fst).Pairwise (fun a b => a ≤ b) →
      ((spansRec d cs ce l).map Prod.fst).Pairwise (fun a b => a ≤ b) := by
  intro l
  induction l with
  | nil => intro cs ce _; simp [spansRec]
  | cons p rest ih =>
      intro cs ce hsort
      rcases List.pairwise_cons.mp hsort with ⟨hcs, htail⟩
      unfold spansRec
      by_cases hb : borderTest d p.1 ce = true
      · rw [if_pos hb, List.map_cons, List.pairwise_cons]
        constructor
        · intro b hb2
          rcases List.mem_map.mp hb2 with ⟨g, hg, rfl⟩
          rcases spansRec_fst_mem d rest p.1 (max ce p.2) g hg with h | h
          · rw [h]; exact hcs _ (by simp)
          · exact hcs _ (List.mem_cons_of_mem _ h)
        · exact ih _ _ htail
      · rw [if_neg hb]
        apply ih
        rw [List.pairwise_cons]
        refine ⟨?_, (List.pairwise_cons.mp htail).2⟩
        intro b hb2
        exact hcs _ (List.mem_cons_of_mem _ hb2)

theorem spansRec_chain (d : Option Int) :
    ∀ (l : List (Int × Int)) (cs ce : Int),
      (spansRec d cs ce l).Chain' (fun g g2 => borderTest d g2.1 g.2 = true) := by
  intro l
  induction l with
  | nil => intro cs ce; simp [spansRec]
  | cons p rest ih =>
      intro cs ce
      unfold spansRec
      by_cases hb : borderTest d p.1 ce = true
      · rw [if_pos hb]
        rcases spansRec_head_fst d p.1 (max ce p.2) rest with ⟨ce1, rest1, hrec⟩
        rw [hrec]
        apply List.Chain'.cons
        · exact hb
        · rw [← hrec]; exact ih _ _
      · rw [if_neg hb]
        exact ih _ _

theorem spansRec_wf (d : Option Int) :
    ∀ (l : List (Int × Int)) (cs ce : Int), (∀ p ∈ l, p.1 ≤ p.2) → cs ≤ ce →
      ∀ g ∈ spansRec d cs ce l, g.1 ≤ g.2 := by
  intro l
  induction l with
  | nil =>
      intro cs ce _ hce g hg
      rcases List.mem_singleton.mp hg with rfl
      exact hce
  | cons p rest ih =>
      intro cs ce hwf hce g hg
      unfold spansRec at hg
      by_cases hb : borderTest d p.1 ce = true
      · rw [if_pos hb] at hg
        rcases List.mem_cons.mp hg with rfl | hg
        · exact hce
        · exact ih _ _ (fun q hq => hwf q (List.mem_cons_of_mem _ hq))
            (le_trans (hwf p (by simp)) (le_max_right _ _)) g hg
      · rw [if_neg hb] at hg
        exact ih _ _ (fun q hq => hwf q (List.mem_cons_of_mem _ hq))
          (le_trans hce (le_max_left _ _)) g hg

theorem spansRec_cover (x : Int) :
    ∀ (l : List (Int × Int)) (cs ce : Int), (∀ p ∈ l, p.1 ≤ p.2) →
      (∀ p ∈ l, cs ≤ p.1) → (l.map Prod.fst).Pairwise (fun a b => a ≤ b) → cs ≤ ce →
      (coveredBy x (spansRec (some 0) cs ce l) ↔ (cs ≤ x ∧ x < ce) ∨ coveredBy x l) := by
  intro l
  induction l with
  | nil =>
      intro cs ce _ _ _ _
      unfold spansRec
      rw [coveredBy_cons]
  | cons p rest ih =>
      intro cs ce hwf hcs hsort hce
      have hwfp : p.1 ≤ p.2 := hwf p (by simp)
      have hcsp : cs ≤ p.1 := hcs p (by simp)
      rcases List.pairwise_cons.mp hsort with ⟨hp1, htail⟩
      unfold spansRec
      by_cases hb : borderTest (some 0) p.1 ce = true
      · have hgt : p.1 > ce := by simpa [borderTest] using hb
        rw [if_pos hb, coveredBy_cons]
        have hmax : max ce p.2 = p.2 := max_eq_right (le_trans (le_of_lt hgt) hwfp)
        rw [hmax]
        have hrec := ih p.1 p.2 (fun q hq => hwf q (List.mem_cons_of_mem _ hq))
          (fun q hq => hp1 q.1 (List.mem_map_of_mem _ hq)) htail hwfp
        rw [hrec, coveredBy_cons]
      · have hle : p.1 ≤ ce := by
          rcases le_or_lt p.1 ce with h | h
          · exact h
          · exact absurd (by simpa [borderTest] using h) hb
        rw [if_neg hb]
        have hrec := ih cs (max ce p.2) (fun q hq => hwf q (List.mem_cons_of_mem _ hq))
          (fun q hq => le_trans hcsp (hp1 q.1 (List.mem_map_of_mem _ hq)))
          htail (le_trans hce (le_max_left _ _))
        rw [hrec, coveredBy_cons]
        constructor
        · rintro (⟨h1, h2⟩ | h)
          · rcases lt_or_le x ce with h3 | h3
            · exact Or.inl ⟨h1, h3⟩
            · refine Or.inr (Or.inl ⟨le_trans hle h3, ?_⟩)
              rcases max_cases ce p.2 with ⟨hm, _⟩ | ⟨hm, _⟩
              · omega
              · omega
          · exact Or.inr (Or.inr h)
        · rintro (⟨h1, h2⟩ | ⟨h1, h2⟩ | h)
          · exact Or.inl ⟨h1, lt_of_lt_of_le h2 (le_max_left _ _)⟩
          · exact Or.inl ⟨le_trans hcsp h1, lt_of_lt_of_le h2 (le_max_right _ _)⟩
          · exact Or.inr h

/-- For an empty input `merge_intervals` returns three empty arrays. -/
theorem merge_intervals_nil (ends : List Int) (d : Option Int) :
    merge_intervals [] ends d = ([], [], []) := rfl

/-- The span components of `merge_intervals` are the reference sweep over the
sorted interval list. -/
theorem merge_spans_eq (starts ends : List Int) (d : Option Int)
    (s0 e0 : Int) (S2 E2 : List Int)
    (hS : mergeSortedStarts starts ends = s0 :: S2)
    (hE : mergeSortedEnds starts ends = e0 :: E2) :
    (merge_intervals starts ends d).2.1 = (spansRec d s0 e0 (S2.zip E2)).map Prod.fst ∧
    (merge_intervals starts ends d).2.2 = (spansRec d s0 e0 (S2.zip E2)).map Prod.snd := by
  have hSlen : (mergeSortedStarts starts ends).length = starts.length := by
    unfold mergeSortedStarts
    rw [npIndex_length]
    unfold sortOrderSE
    exact argLexsort_length _ _
  have hElen : (mergeSortedEnds starts ends).length = starts.length := by
    unfold mergeSortedEnds
    rw [npIndex_length]
    unfold sortOrderSE
    exact argLexsort_length _ _
  have hlen : S2.length = E2.length := by
    have h1 : S2.length + 1 = starts.length := by
      rw [← hSlen, hS]; rfl
    have h2 : E2.length + 1 = starts.length := by
      rw [← hElen, hE]; rfl
    omega
  have hacc : mergeAccEnds starts ends = accumaxFrom e0 E2 := by
    unfold mergeAccEnds
    rw [hE]
    rfl
  unfold merge_intervals mergeBorders
  rw [hS, hacc]
  constructor
  · show maskSelect (s0 :: S2) ((true :: _ ++ [true]).dropLast) = _
    rw [show (true :: (List.zipWith (fun s e => borderTest d s e) S2
        (accumaxFrom e0 E2).dropLast) ++ [true])
      = ((true :: List.zipWith (fun s e => borderTest d s e) S2
        (accumaxFrom e0 E2).dropLast) ++ [true]) from rfl]
    rw [List.dropLast_concat]
    exact maskSelect_spansRec_fst d S2 E2 s0 e0 hlen
  · show maskSelect (accumaxFrom e0 E2)
        ((List.zipWith (fun s e => borderTest d s e) S2
          (accumaxFrom e0 E2).dropLast) ++ [true]) = _
    exact maskSelect_spansRec_snd d S2 E2 s0 e0 hlen


/-!  ### Index arithmetic for the cluster-id array  -/

theorem cumsumFrom_length (c : Int) (l : List Int) :
    (cumsumFrom c l).length = l.length := by
  induction l generalizing c with
  | nil => rfl
  | cons x xs ih => simp [cumsumFrom, ih]

theorem cumsum_length (l : List Int) : (cumsum l).length = l.length :=
  cumsumFrom_length 0 l

theorem getD_map_of_lt {α β : Type} (f : α → β) (l : List α) (i : Nat)
    (h : i < l.length) (da : α) (db : β) : (l.map f).getD i db = f (l.getD i da) := by
  induction l generalizing i with
  | nil => simp at h
  | cons x xs ih =>
      cases i with
      | zero => rfl
      | succ m =>
          show (xs.map f).getD m db = f (xs.getD m da)
          exact ih m (by simpa using h)

theorem getD_dropLast_of_lt {α : Type} (l : List α) (i : Nat)
    (h : i + 1 < l.length) (d : α) : l.dropLast.getD i d = l.getD i d := by
  have h2 : i < l.dropLast.length := by
    rw [List.length_dropLast]
    omega
  rw [List.getD_eq_getElem?_getD, List.getElem?_eq_getElem h2,
    List.getD_eq_getElem?_getD, List.getElem?_eq_getElem (by omega : i < l.length)]
  simp [List.getElem_dropLast]

theorem getD_append_of_lt {α : Type} (l l2 : List α) (i : Nat)
    (h : i < l.length) (d : α) : (l ++ l2).getD i d = l.getD i d := by
  rw [List.getD_eq_getElem?_getD, List.getD_eq_getElem?_getD,
    List.getElem?_eq_getElem h,
    List.getElem?_eq_getElem (by rw [List.length_append]; omega : i < (l ++ l2).length)]
  rw [List.getElem_append_left h]

theorem zipWith_getD_of_lt {α β γ : Type} (f : α → β → γ) (xs : List α) (ys : List β)
    (i : Nat) (hx : i < xs.length) (hy : i < ys.length) (da : α) (db : β) (dc : γ) :
    (List.zipWith f xs ys).getD i dc = f (xs.getD i da) (ys.getD i db) := by
  induction xs generalizing ys i with
  | nil => simp at hx
  | cons x xs2 ih =>
      cases ys with
      | nil => simp at hy
      | cons y ys2 =>
          cases i with
          | zero => rfl
          | succ m =>
              show (List.zipWith f xs2 ys2).getD m dc = _
              exact ih ys2 m (by simpa using hx) (by simpa using hy)

theorem sum_take_succ_getD (l : List Int) (i : Nat) (h : i < l.length) :
    (l.take (i + 1)).sum = (l.take i).sum + l.getD i 0 := by
  induction l generalizing i with
  | nil => simp at h
  | cons x xs ih =>
      cases i with
      | zero => simp
      | succ m =>
          have h2 := ih m (by simpa using h)
          simp only [List.take_succ_cons, List.sum_cons, h2, List.getD_cons_succ]
          ring

theorem cumsumFrom_getD (l : List Int) :
    ∀ (c : Int) (i : Nat), i < l.length →
      (cumsumFrom c l).getD i 0 = c + (l.take (i + 1)).sum := by
  induction l with
  | nil => intro c i h; simp at h
  | cons x xs ih =>
      intro c i h
      cases i with
      | zero => simp [cumsumFrom]
      | succ m =>
          show (cumsumFrom (c + x) xs).getD m 0 = _
          rw [ih (c + x) m (by simpa using h)]
          simp only [List.take_succ_cons, List.sum_cons]
          ring

theorem cumsum_getD (l : List Int) (i : Nat) (h : i < l.length) :
    (cumsum l).getD i 0 = (l.take (i + 1)).sum := by
  show (cumsumFrom 0 l).getD i 0 = _
  rw [cumsumFrom_getD l 0 i h, zero_add]

theorem mergeSortedStarts_length (starts ends : List Int) :
    (mergeSortedStarts starts ends).length = starts.length := by
  unfold mergeSortedStarts
  rw [npIndex_length]
  exact argLexsort_length _ _

theorem mergeSortedEnds_length (starts ends : List Int) :
    (mergeSortedEnds starts ends).length = starts.length := by
  unfold mergeSortedEnds
  rw [npIndex_length]
  exact argLexsort_length _ _

theorem mergeAccEnds_length (starts ends : List Int) :
    (mergeAccEnds starts ends).length = starts.length := by
  unfold mergeAccEnds
  cases hcase : mergeSortedEnds starts ends with
  | nil =>
      have hz := mergeSortedEnds_length starts ends
      rw [hcase] at hz
      simp [accumax, ← hz]
  | cons e0 E2 =>
      have hz := mergeSortedEnds_length starts ends
      rw [hcase] at hz
      show (accumaxFrom e0 E2).length = starts.length
      rw [accumaxFrom_length]
      simpa using hz

theorem mergeBorders_length (starts ends : List Int) (d : Option Int) :
    (mergeBorders starts ends d).length = starts.length + 1 := by
  unfold mergeBorders
  cases hcase : mergeSortedStarts starts ends with
  | nil =>
      have hz := mergeSortedStarts_length starts ends
      rw [hcase] at hz
      simp [← hz]
  | cons s0 S2 =>
      have hz := mergeSortedStarts_length starts ends
      rw [hcase] at hz
      have hmid : (List.zipWith (fun s e => borderTest d s e) S2
          (mergeAccEnds starts ends).dropLast).length = S2.length := by
        rw [List.length_zipWith, List.length_dropLast, mergeAccEnds_length]
        simp only [List.length_cons] at hz
        omega
      simp only [List.length_cons, List.length_append, hmid, List.length_singleton,
        List.length_nil]
      simp only [List.length_cons] at hz
      omega

/-- The sorted-order cluster-id array has one entry per input interval. -/
theorem mergeIdsSorted_length (starts ends : List Int) (d : Option Int) :
    (mergeIdsSorted starts ends d).length = starts.length := by
  unfold mergeIdsSorted
  rw [List.length_map, List.length_dropLast, cumsum_length, List.length_map,
    mergeBorders_length]
  simp

/-- The first entry of the boundary array is true. -/
theorem mergeBorders_getD_zero (starts ends : List Int) (d : Option Int) :
    (mergeBorders starts ends d).getD 0 false = true := by
  unfold mergeBorders
  cases mergeSortedStarts starts ends <;> rfl

/-- Interior entries of the boundary array are the boundary test between the
sorted start and the previous accumulated end. -/
theorem mergeBorders_getD_interior (starts ends : List Int) (d : Option Int)
    (j : Nat) (hj : j + 1 < starts.length) :
    (mergeBorders starts ends d).getD (j + 1) false
      = borderTest d ((mergeSortedStarts starts ends).getD (j + 1) 0)
          ((mergeAccEnds starts ends).getD j 0) := by
  unfold mergeBorders
  cases hcase : mergeSortedStarts starts ends with
  | nil =>
      have hz := mergeSortedStarts_length starts ends
      rw [hcase] at hz
      rw [← hz] at hj
      simp at hj
  | cons s0 S2 =>
      have hz := mergeSortedStarts_length starts ends
      rw [hcase] at hz
      simp only [List.length_cons] at hz
      have hjS : j < S2.length := by omega
      have hjA : j + 1 < (mergeAccEnds starts ends).length := by
        rw [mergeAccEnds_length]
        omega
      show ((true :: List.zipWith (fun s e => borderTest d s e) S2
          (mergeAccEnds starts ends).dropLast) ++ [true]).getD (j + 1) false = _
      have h5 : ((true :: List.zipWith (fun s e => borderTest d s e) S2
            (mergeAccEnds starts ends).dropLast) ++ [true]).getD (j + 1) false
          = (true :: List.zipWith (fun s e => borderTest d s e) S2
            (mergeAccEnds starts ends).dropLast).getD (j + 1) false :=
        getD_append_of_lt _ _ (j + 1) (by
          rw [List.length_cons, List.length_zipWith, List.length_dropLast,
            mergeAccEnds_length]
          omega) false
      rw [h5, List.getD_cons_succ]
      have h6 : (List.zipWith (fun s e => borderTest d s e) S2
            (mergeAccEnds starts ends).dropLast).getD j false
          = borderTest d (S2.getD j 0)
              ((mergeAccEnds starts ends).dropLast.getD j 0) :=
        zipWith_getD_of_lt _ _ _ j hjS (by
          rw [List.length_dropLast, mergeAccEnds_length]; omega) 0 0 false
      have h7 : (mergeAccEnds starts ends).dropLast.getD j 0
          = (mergeAccEnds starts ends).getD j 0 :=
        getD_dropLast_of_lt _ _ hjA 0
      rw [h6, h7, List.getD_cons_succ]

/-- Consecutive sorted-order cluster ids differ by the boundary indicator. -/
theorem mergeIdsSorted_step (starts ends : List Int) (d : Option Int)
    (j : Nat) (hj : j + 1 < starts.length) :
    (mergeIdsSorted starts ends d).getD (j + 1) 0
      = (mergeIdsSorted starts ends d).getD j 0
        + boolInt ((mergeBorders starts ends d).getD (j + 1) false) := by
  have hblen := mergeBorders_length starts ends d
  have hcl : (cumsum ((mergeBorders starts ends d).map boolInt)).length
      = starts.length + 1 := by
    rw [cumsum_length, List.length_map, hblen]
  unfold mergeIdsSorted
  rw [getD_map_of_lt _ _ (j + 1) (by
      rw [List.length_dropLast, hcl]; omega) 0,
    getD_map_of_lt _ _ j (by
      rw [List.length_dropLast, hcl]; omega) 0,
    getD_dropLast_of_lt _ _ (by rw [hcl]; omega),
    getD_dropLast_of_lt _ _ (by rw [hcl]; omega),
    cumsum_getD _ _ (by rw [List.length_map, hblen]; omega),
    cumsum_getD _ _ (by rw [List.length_map, hblen]; omega),
    sum_take_succ_getD _ _ (by rw [List.length_map, hblen]; omega),
    getD_map_of_lt _ _ (j + 1) (by rw [hblen]; omega) false]
  ring

/-- The first sorted-order cluster id is 0. -/
theorem mergeIdsSorted_zero (starts ends : List Int) (d : Option Int)
    (h : 0 < starts.length) : (mergeIdsSorted starts ends d).getD 0 0 = 0 := by
  have hblen := mergeBorders_length starts ends d
  have hcl : (cumsum ((mergeBorders starts ends d).map boolInt)).length
      = starts.length + 1 := by
    rw [cumsum_length, List.length_map, hblen]
  unfold mergeIdsSorted
  rw [getD_map_of_lt _ _ 0 (by rw [List.length_dropLast, hcl]; omega) 0,
    getD_dropLast_of_lt _ _ (by rw [hcl]; omega),
    cumsum_getD _ _ (by rw [List.length_map, hblen]; omega),
    sum_take_succ_getD _ _ (by rw [List.length_map, hblen]; omega),
    getD_map_of_lt _ _ 0 (by rw [hblen]; omega) false,
    mergeBorders_getD_zero]
  simp [boolInt]

theorem maskSelect_length_sum {α : Type} (xs : List α) (mask : List Bool)
    (h : xs.length = mask.length) :
    Int.ofNat (maskSelect xs mask).length = (mask.map boolInt).sum := by
  induction xs generalizing mask with
  | nil =>
      have : mask = [] := List.eq_nil_of_length_eq_zero (by simpa using h.symm)
      subst this
      simp [maskSelect, boolInt]
  | cons x xs2 ih =>
      cases mask with
      | nil => simp at h
      | cons b ms =>
          have h2 : xs2.length = ms.length := by simpa using h
          cases b with
          | true =>
              rw [maskSelect_cons_true]
              simp only [List.map_cons, List.sum_cons, List.length_cons]
              rw [← ih ms h2]
              simp [boolInt]
              ring
          | false =>
              rw [maskSelect_cons_false]
              simp only [List.map_cons, List.sum_cons]
              rw [← ih ms h2]
              simp [boolInt]


/-!  ### C1: the Merger returns sorted-order ids, not input-order ids  -/

/-- C1: the claim states `merge_intervals` scatters the cluster ids back to
original input order.  The code computes that scattered array (lines
223-224) but returns `cluster_ids_sorted` instead.  On the input
[(5,6), (0,1)] with min_dist 0 the sort permutation is nontrivial: the
returned id array is [0, 1] (sorted order), while the input-order ids the
claim describes are [1, 0]. -/
theorem C1_merger_id_order_cex :
    merge_intervals [5, 0] [6, 1] (some 0) = ([0, 1], [0, 5], [1, 6])
    ∧ mergeScatteredIds [5, 0] [6, 1] (some 0) = [1, 0]
    ∧ (merge_intervals [5, 0] [6, 1] (some 0)).1
        ≠ mergeScatteredIds [5, 0] [6, 1] (some 0) := by
  refine ⟨by decide, by decide, by decide⟩

/-!  ### C4: the boundary condition of the Merger  -/

/-- C4: in sorted order, a new cluster begins at position j+1 exactly when
the boundary test holds against the running maximum end: strictly more than
`min_dist` beyond it for a finite `min_dist`, and at or beyond it for the
`None` sentinel.  The two examples of the claim evaluate as stated: merging
[(0,1),(1,2)] with min_dist None yields two clusters, with min_dist 0 one
cluster spanning (0,2). -/
theorem C4_merger_boundary (starts ends : List Int)
    (_hlen : starts.length = ends.length) (j : Nat) (hj : j + 1 < starts.length) :
    (∀ dv : Int,
      ((mergeIdsSorted starts ends (some dv)).getD (j + 1) 0
          ≠ (mergeIdsSorted starts ends (some dv)).getD j 0
        ↔ (mergeSortedStarts starts ends).getD (j + 1) 0
            > (mergeAccEnds starts ends).getD j 0 + dv))
    ∧ ((mergeIdsSorted starts ends none).getD (j + 1) 0
          ≠ (mergeIdsSorted starts ends none).getD j 0
        ↔ (mergeSortedStarts starts ends).getD (j + 1) 0
            ≥ (mergeAccEnds starts ends).getD j 0)
    ∧ merge_intervals [0, 1] [1, 2] none = ([0, 1], [0, 1], [1, 2])
    ∧ merge_intervals [0, 1] [1, 2] (some 0) = ([0, 0], [0], [2]) := by
  refine ⟨?_, ?_, by decide, by decide⟩
  · intro dv
    rw [mergeIdsSorted_step starts ends (some dv) j hj,
      mergeBorders_getD_interior starts ends (some dv) j hj]
    unfold borderTest boolInt
    by_cases hb : (mergeSortedStarts starts ends).getD (j + 1) 0
        > (mergeAccEnds starts ends).getD j 0 + dv
    · simp [hb]
    · simp [hb]
  · rw [mergeIdsSorted_step starts ends none j hj,
      mergeBorders_getD_interior starts ends none j hj]
    unfold borderTest boolInt
    by_cases hb : (mergeSortedStarts starts ends).getD (j + 1) 0
        ≥ (mergeAccEnds starts ends).getD j 0
    · simp [hb]
    · simp [hb]

/-- C4 witness: the boundary characterization applied to a concrete
two-interval input. -/
theorem C4_merger_boundary_witness :
    ((mergeIdsSorted [0, 5] [1, 6] (some 0)).getD 1 0
        ≠ (mergeIdsSorted [0, 5] [1, 6] (some 0)).getD 0 0
      ↔ (mergeSortedStarts [0, 5] [1, 6]).getD 1 0
          > (mergeAccEnds [0, 5] [1, 6]).getD 0 0 + 0) := by
  exact (C4_merger_boundary [0, 5] [1, 6] (by decide) 0 (by decide)).1 0

/-!  ### C9: mutual consistency of the Merger outputs  -/

/-- C9: the id array has one entry per interval; in sorted order it starts
at 0 and is non-decreasing in steps of at most 1; the number of cluster
spans equals the largest id plus one; and the two span arrays are aligned. -/
theorem C9_merger_consistency (starts ends : List Int)
    (_hlen : starts.length = ends.length) (d : Option Int) :
    (merge_intervals starts ends d).1.length = starts.length
    ∧ ((merge_intervals starts ends d).2.1).length
        = ((merge_intervals starts ends d).2.2).length
    ∧ (0 < starts.length →
        (merge_intervals starts ends d).1.getD 0 0 = 0
        ∧ (∀ j, j + 1 < starts.length →
            (merge_intervals starts ends d).1.getD (j + 1) 0
                = (merge_intervals starts ends d).1.getD j 0
            ∨ (merge_intervals starts ends d).1.getD (j + 1) 0
                = (merge_intervals starts ends d).1.getD j 0 + 1)
        ∧ Int.ofNat ((merge_intervals starts ends d).2.1).length
            = (merge_intervals starts ends d).1.getD (starts.length - 1) 0 + 1)
    ∧ (starts.length = 0 → merge_intervals starts ends d = ([], [], [])) := by
  have hids : (merge_intervals starts ends d).1 = mergeIdsSorted starts ends d := rfl
  refine ⟨?_, ?_, ?_, ?_⟩
  · rw [hids]; exact mergeIdsSorted_length starts ends d
  · cases hcS : mergeSortedStarts starts ends with
    | nil =>
        have hz := mergeSortedStarts_length starts ends
        rw [hcS] at hz
        have hz2 : starts = [] := List.eq_nil_of_length_eq_zero (by simpa using hz.symm)
        subst hz2
        rfl
    | cons s0 S2 =>
        cases hcE : mergeSortedEnds starts ends with
        | nil =>
            have hz := mergeSortedStarts_length starts ends
            have hz2 := mergeSortedEnds_length starts ends
            rw [hcS] at hz
            rw [hcE] at hz2
            rw [← hz2] at hz
            simp at hz
        | cons e0 E2 =>
            rcases merge_spans_eq starts ends d s0 e0 S2 E2 hcS hcE with ⟨h1, h2⟩
            rw [h1, h2, List.length_map, List.length_map]
  · intro hpos
    refine ⟨?_, ?_, ?_⟩
    · rw [hids]; exact mergeIdsSorted_zero starts ends d hpos
    · intro j hj
      rw [hids, mergeIdsSorted_step starts ends d j hj]
      cases (mergeBorders starts ends d).getD (j + 1) false with
      | true => exact Or.inr (by simp [boolInt])
      | false => exact Or.inl (by simp [boolInt])
    · have hblen := mergeBorders_length starts ends d
      have hSlen := mergeSortedStarts_length starts ends
      have hdl : (mergeBorders starts ends d).dropLast
          = (mergeBorders starts ends d).take starts.length := by
        rw [List.dropLast_eq_take, hblen]
        simp
      have hsel : Int.ofNat ((merge_intervals starts ends d).2.1).length
          = (((mergeBorders starts ends d).dropLast).map boolInt).sum := by
        show Int.ofNat (maskSelect (mergeSortedStarts starts ends)
            (mergeBorders starts ends d).dropLast).length = _
        apply maskSelect_length_sum
        rw [hSlen, List.length_dropLast, hblen]
        simp
      rw [hsel, hids]
      have hn1 : starts.length - 1 < starts.length := by omega
      have hcl : (cumsum ((mergeBorders starts ends d).map boolInt)).length
          = starts.length + 1 := by
        rw [cumsum_length, List.length_map, hblen]
      unfold mergeIdsSorted
      rw [getD_map_of_lt _ _ _ (by rw [List.length_dropLast, hcl]; omega) 0,
        getD_dropLast_of_lt _ _ (by rw [hcl]; omega),
        cumsum_getD _ _ (by rw [List.length_map, hblen]; omega)]
      rw [show starts.length - 1 + 1 = starts.length from by omega]
      rw [← List.map_take, ← hdl]
      ring
  · intro hz
    have hz2 : starts = [] := List.eq_nil_of_length_eq_zero hz
    subst hz2
    rfl

/-- C9 witness: the consistency statement applied to a concrete input. -/
theorem C9_merger_consistency_witness :
    (merge_intervals [1, 3, 10] [5, 8, 12] (some 0)).1.length = 3
    ∧ ((merge_intervals [1, 3, 10] [5, 8, 12] (some 0)).2.1).length
        = ((merge_intervals [1, 3, 10] [5, 8, 12] (some 0)).2.2).length := by
  have h := C9_merger_consistency [1, 3, 10] [5, 8, 12] (by decide) (some 0)
  exact ⟨by rw [h.1]; decide, h.2.1⟩


/-!  ### The canonical-input identity of the Merger (towards idempotence)  -/

theorem lexLTb_pair (a b c d : Int) :
    lexLTb [a, b] [c, d] = true ↔ a < c ∨ (a = c ∧ b < d) := by
  show (decide (a < c) || (decide (a = c) && (decide (b < d)
      || (decide (b = d) && lexLTb [] [])))) = true ↔ _
  show (decide (a < c) || (decide (a = c) && (decide (b < d)
      || (decide (b = d) && false)))) = true ↔ _
  simp

theorem pairwise_getD_le (l : List Int) (h : l.Pairwise (fun a b => a ≤ b))
    (p q : Nat) (hpq : p < q) (hq : q < l.length) : l.getD p 0 ≤ l.getD q 0 := by
  have hp : p < l.length := lt_trans hpq hq
  rw [List.getD_eq_getElem?_getD, List.getElem?_eq_getElem hp,
    List.getD_eq_getElem?_getD, List.getElem?_eq_getElem hq]
  exact List.pairwise_iff_getElem.mp h p q hp hq hpq

theorem npIndex_range (xs : List Int) : npIndex xs (List.range xs.length) = xs := by
  apply List.ext_getElem
  · simp [npIndex]
  · intro i h1 h2
    simp only [npIndex, List.getElem_map, List.getElem_range]
    rw [List.getD_eq_getElem?_getD, List.getElem?_eq_getElem h2]
    rfl

theorem accumaxFrom_eq_cons (a : Int) (l : List Int)
    (ha : ∀ y ∈ l, a ≤ y) (h : l.Pairwise (fun x y => x ≤ y)) :
    accumaxFrom a l = a :: l := by
  induction l generalizing a with
  | nil => rfl
  | cons e es ih =>
      show a :: accumaxFrom (max a e) es = a :: e :: es
      rcases List.pairwise_cons.mp h with ⟨he, hes⟩
      have hae : a ≤ e := ha e (by simp)
      rw [max_eq_right hae]
      rw [ih e he hes]

theorem accumax_of_pairwise (l : List Int) (h : l.Pairwise (fun x y => x ≤ y)) :
    accumax l = l := by
  cases l with
  | nil => rfl
  | cons e es =>
      show accumaxFrom e es = e :: es
      rcases List.pairwise_cons.mp h with ⟨he, hes⟩
      exact accumaxFrom_eq_cons e es he hes

theorem maskSelect_replicate_true {α : Type} (xs : List α) (n : Nat)
    (h : xs.length = n) : maskSelect xs (List.replicate n true) = xs := by
  induction xs generalizing n with
  | nil => simp [maskSelect]
  | cons x xs2 ih =>
      cases n with
      | zero => simp at h
      | succ m =>
          rw [List.replicate_succ, maskSelect_cons_true, ih m (by simpa using h)]

theorem chain'_getD {α : Type} (R : α → α → Prop) (l : List α) (hc : l.Chain' R)
    (j : Nat) (hj : j + 1 < l.length) (d : α) : R (l.getD j d) (l.getD (j + 1) d) := by
  induction l generalizing j with
  | nil => simp at hj
  | cons x xs ih =>
      cases xs with
      | nil => simp at hj
      | cons y ys =>
          rcases hc with _ | ⟨hxy, hrest⟩
          cases j with
          | zero => exact hxy
          | succ m =>
              show R ((y :: ys).getD m d) ((y :: ys).getD (m + 1) d)
              exact ih hrest m (by simpa using hj)

theorem cumsumFrom_replicate_one (k : Nat) : ∀ c : Int,
    cumsumFrom c (List.replicate k 1) = (List.range k).map (fun t => c + Int.ofNat t + 1) := by
  induction k with
  | zero => intro c; rfl
  | succ m ih =>
      intro c
      rw [List.replicate_succ]
      show (c + 1) :: cumsumFrom (c + 1) (List.replicate m 1) = _
      rw [ih (c + 1), List.range_succ_eq_map, List.map_cons, List.map_map]
      congr 1
      · simp
      · apply List.map_congr_left
        intro t _
        simp only [Function.comp_apply, Int.ofNat_eq_coe]
        push_cast
        ring

theorem mergeSortedStarts_pairwise (starts ends : List Int) :
    (mergeSortedStarts starts ends).Pairwise (fun a b => a ≤ b) := by
  unfold mergeSortedStarts npIndex sortOrderSE
  have hP := argLexsort_pairwise starts.length
    (fun p => [starts.getD p 0, ends.getD p 0]) (fun p q => rfl)
  refine List.Pairwise.map _ (fun u v huv => ?_) hP
  rcases huv with hlt | ⟨heq, _⟩
  · rcases (lexLTb_pair _ _ _ _).mp hlt with h | ⟨h, _⟩
    · exact le_of_lt h
    · exact le_of_eq h
  · have h2 : starts.getD u 0 = starts.getD v 0 := by
      have h3 : [starts.getD u 0, ends.getD u 0] = [starts.getD v 0, ends.getD v 0] := heq
      exact (List.cons.injEq _ _ _ _).mp h3 |>.1
    exact le_of_eq h2

/-- A merge whose input is already a canonical span list (sorted by
`(start, end)`, non-decreasing ends, boundary test true between every pair
of neighbours) returns one cluster per interval and the input unchanged. -/
theorem merge_canonical (ss ee : List Int) (hlen : ss.length = ee.length)
    (hfst : ss.Pairwise (fun a b => a ≤ b)) (hsnd : ee.Pairwise (fun a b => a ≤ b))
    (d : Option Int)
    (hchain : ∀ j, j + 1 < ss.length →
      borderTest d (ss.getD (j + 1) 0) (ee.getD j 0) = true) :
    merge_intervals ss ee d = ((List.range ss.length).map Int.ofNat, ss, ee) := by
  have hkey : (List.range ss.length).Pairwise
      (keyLE (fun p => [ss.getD p 0, ee.getD p 0])) := by
    rw [List.pairwise_iff_getElem]
    intro p q hp hq hpq
    simp only [List.getElem_range]
    simp only [List.length_range] at hp hq
    have hsle : ss.getD p 0 ≤ ss.getD q 0 := pairwise_getD_le ss hfst p q hpq hq
    have hele : ee.getD p 0 ≤ ee.getD q 0 :=
      pairwise_getD_le ee hsnd p q hpq (by omega)
    rcases lt_or_eq_of_le hsle with h | h
    · exact Or.inl ((lexLTb_pair _ _ _ _).mpr (Or.inl h))
    · rcases lt_or_eq_of_le hele with h2 | h2
      · exact Or.inl ((lexLTb_pair _ _ _ _).mpr (Or.inr ⟨h, h2⟩))
      · refine Or.inr ⟨?_, le_of_lt hpq⟩
        show [ss.getD p 0, ee.getD p 0] = [ss.getD q 0, ee.getD q 0]
        rw [h, h2]
  have horder : sortOrderSE ss ee = List.range ss.length :=
    argLexsort_eq_range _ _ hkey
  have hS : mergeSortedStarts ss ee = ss := by
    unfold mergeSortedStarts
    rw [horder, npIndex_range]
  have hE : mergeSortedEnds ss ee = ee := by
    unfold mergeSortedEnds
    rw [horder, hlen, npIndex_range]
  have hA : mergeAccEnds ss ee = ee := by
    unfold mergeAccEnds
    rw [hE]
    exact accumax_of_pairwise ee hsnd
  have hborders : mergeBorders ss ee d = List.replicate (ss.length + 1) true := by
    have hblen := mergeBorders_length ss ee d
    rw [← hblen]
    apply List.eq_replicate_of_mem
    intro b hb
    unfold mergeBorders at hb
    rw [hS] at hb
    cases ss with
    | nil => simpa using hb
    | cons s0 S2 =>
        have hAd : (mergeAccEnds (s0 :: S2) ee).dropLast.length = S2.length := by
          rw [List.length_dropLast, mergeAccEnds_length]
          simp
        rcases List.mem_append.mp hb with hb2 | hb2
        · rcases List.mem_cons.mp hb2 with rfl | hb3
          · rfl
          · rw [List.mem_iff_getElem] at hb3
            rcases hb3 with ⟨i, hilt, hieq⟩
            have hiS : i < S2.length := by
              have h9 := hilt
              rw [List.length_zipWith, hAd] at h9
              omega
            have hval : (List.zipWith (fun s e => borderTest d s e) S2
                (mergeAccEnds (s0 :: S2) ee).dropLast).getD i false
                = borderTest d (S2.getD i 0)
                    ((mergeAccEnds (s0 :: S2) ee).dropLast.getD i 0) :=
              zipWith_getD_of_lt _ _ _ i hiS (by rw [hAd]; exact hiS) 0 0 false
            rw [List.getD_eq_getElem?_getD, List.getElem?_eq_getElem hilt,
              Option.getD_some] at hval
            have hilen : i + 1 < (s0 :: S2).length := by
              simp only [List.length_cons]
              omega
            have hgs : S2.getD i 0 = (s0 :: S2).getD (i + 1) 0 := by
              rw [List.getD_cons_succ]
            have hge : (mergeAccEnds (s0 :: S2) ee).dropLast.getD i 0
                = ee.getD i 0 := by
              rw [getD_dropLast_of_lt _ _ (by
                rw [mergeAccEnds_length]
                exact hilen) 0, hA]
            rw [← hieq, hval, hgs, hge]
            exact hchain i hilen
        · rcases List.mem_singleton.mp hb2 with rfl
          rfl
  have hids : mergeIdsSorted ss ee d = (List.range ss.length).map Int.ofNat := by
    unfold mergeIdsSorted
    rw [hborders, List.map_replicate]
    show ((cumsumFrom 0 (List.replicate (ss.length + 1) (boolInt true))).dropLast).map
        (fun x => x - 1) = _
    rw [show boolInt true = 1 from rfl]
    rw [cumsumFrom_replicate_one]
    rw [List.range_succ, List.map_append, List.map_singleton, List.dropLast_concat,
      List.map_map]
    apply List.map_congr_left
    intro t _
    simp only [Function.comp_apply]
    ring
  show (mergeIdsSorted ss ee d,
      maskSelect (mergeSortedStarts ss ee) (mergeBorders ss ee d).dropLast,
      maskSelect (mergeAccEnds ss ee) ((mergeBorders ss ee d).drop 1)) = _
  rw [hids, hS, hA, hborders]
  rw [List.dropLast_replicate]
  rw [show (List.replicate (ss.length + 1) true).drop 1
      = List.replicate ss.length true by rw [List.replicate_succ]; rfl]
  rw [maskSelect_replicate_true ss (ss.length + 1 - 1) (by omega),
    maskSelect_replicate_true ee ss.length hlen.symm]

/-!  ### C7: idempotence of the Merger on its own spans  -/

/-- C7: re-merging the cluster spans produced by `merge_intervals`, with the
same `min_dist`, yields exactly one cluster per span (ids 0..m-1 in order)
and returns the spans unchanged. -/
theorem C7_merger_idempotent (starts ends : List Int)
    (hlen : starts.length = ends.length) (d : Option Int) :
    merge_intervals (merge_intervals starts ends d).2.1
        (merge_intervals starts ends d).2.2 d
      = ((List.range ((merge_intervals starts ends d).2.1).length).map Int.ofNat,
         (merge_intervals starts ends d).2.1,
         (merge_intervals starts ends d).2.2) := by
  cases hcS : mergeSortedStarts starts ends with
  | nil =>
      have hz := mergeSortedStarts_length starts ends
      rw [hcS] at hz
      have hz2 : starts = [] := List.eq_nil_of_length_eq_zero (by simpa using hz.symm)
      subst hz2
      rfl
  | cons s0 S2 =>
      cases hcE : mergeSortedEnds starts ends with
      | nil =>
          have hz := mergeSortedStarts_length starts ends
          have hz2 := mergeSortedEnds_length starts ends
          rw [hcS] at hz
          rw [hcE] at hz2
          rw [← hz2] at hz
          simp at hz
      | cons e0 E2 =>
          have hlen2 : S2.length = E2.length := by
            have hz := mergeSortedStarts_length starts ends
            have hz2 := mergeSortedEnds_length starts ends
            rw [hcS] at hz
            rw [hcE] at hz2
            simp only [List.length_cons] at hz hz2
            omega
          rcases merge_spans_eq starts ends d s0 e0 S2 E2 hcS hcE with ⟨h1, h2⟩
          set sp := spansRec d s0 e0 (S2.zip E2) with hsp
          have hmslen : ((merge_intervals starts ends d).2.1).length
              = ((merge_intervals starts ends d).2.2).length := by
            rw [h1, h2, List.length_map, List.length_map]
          apply merge_canonical
      -- remaining goals: length, fst sorted, snd sorted, chain
          · exact hmslen
          · rw [h1]
            apply spansRec_fst_pairwise
            have hmap : (S2.zip E2).map Prod.fst = S2 :=
              List.map_fst_zip S2 E2 (le_of_eq hlen2)
            rw [hmap]
            have hP := mergeSortedStarts_pairwise starts ends
            rw [hcS] at hP
            exact hP
          · rw [h2]
            exact spansRec_snd_pairwise d _ _ _
          · intro j hj
            rw [h1] at hj
            rw [List.length_map] at hj
            have hc := spansRec_chain d (S2.zip E2) s0 e0
            have hr := chain'_getD _ _ hc j hj (0, 0)
            rw [h1, h2]
            rw [getD_map_of_lt _ _ _ hj (0, 0),
              getD_map_of_lt _ _ _ (by omega : j < sp.length) (0, 0)]
            exact hr

/-- C7 witness: idempotence applied to a concrete three-interval input. -/
theorem C7_merger_idempotent_witness :
    merge_intervals (merge_intervals [1, 3, 10] [5, 8, 12] (some 0)).2.1
        (merge_intervals [1, 3, 10] [5, 8, 12] (some 0)).2.2 (some 0)
      = ((List.range ((merge_intervals [1, 3, 10] [5, 8, 12] (some 0)).2.1).length).map
          Int.ofNat,
         (merge_intervals [1, 3, 10] [5, 8, 12] (some 0)).2.1,
         (merge_intervals [1, 3, 10] [5, 8, 12] (some 0)).2.2) :=
  C7_merger_idempotent [1, 3, 10] [5, 8, 12] (by decide) (some 0)


/-!  ### Coverage and slicing lemmas for the Complement Engine  -/

theorem coveredBy_append (x : Int) (l1 l2 : List (Int × Int)) :
    coveredBy x (l1 ++ l2) ↔ coveredBy x l1 ∨ coveredBy x l2 := by
  unfold coveredBy
  constructor
  · rintro ⟨p, hp, h1, h2⟩
    rcases List.mem_append.mp hp with hp | hp
    · exact Or.inl ⟨p, hp, h1, h2⟩
    · exact Or.inr ⟨p, hp, h1, h2⟩
  · rintro (⟨p, hp, h1, h2⟩ | ⟨p, hp, h1, h2⟩)
    · exact ⟨p, List.mem_append.mpr (Or.inl hp), h1, h2⟩
    · exact ⟨p, List.mem_append.mpr (Or.inr hp), h1, h2⟩

theorem coveredBy_of_perm (x : Int) (l l2 : List (Int × Int)) (h : l.Perm l2) :
    coveredBy x l ↔ coveredBy x l2 := by
  unfold coveredBy
  constructor
  · rintro ⟨p, hp, hc⟩
    exact ⟨p, h.mem_iff.mp hp, hc⟩
  · rintro ⟨p, hp, hc⟩
    exact ⟨p, h.mem_iff.mpr hp, hc⟩

/-- The jointly sorted interval list is a permutation of the input list. -/
theorem mergeZip_perm (starts ends : List Int) (hlen : starts.length = ends.length) :
    ((mergeSortedStarts starts ends).zip (mergeSortedEnds starts ends)).Perm
      (starts.zip ends) := by
  unfold mergeSortedStarts mergeSortedEnds npIndex
  rw [List.zip_map']
  have hr : (List.range starts.length).map
      (fun u => (starts.getD u 0, ends.getD u 0)) = starts.zip ends := by
    apply List.ext_getElem
    · simp [List.length_zip, hlen]
    · intro i h1 h2
      simp only [List.getElem_map, List.getElem_range, List.getElem_zip]
      rw [List.length_map, List.length_range] at h1
      rw [List.getD_eq_getElem?_getD,
        List.getElem?_eq_getElem (show i < starts.length from h1),
        List.getD_eq_getElem?_getD,
        List.getElem?_eq_getElem (show i < ends.length by omega)]
      rfl
  rw [← hr]
  exact (argLexsort_perm starts.length _).map _

theorem getD_drop {α : Type} (P : List α) (lo : Nat) (j : Nat) (d : α) :
    (P.drop lo).getD j d = P.getD (lo + j) d := by
  induction lo generalizing P with
  | zero => simp
  | succ m ih =>
      cases P with
      | nil => simp
      | cons p P2 =>
          show (P2.drop m).getD j d = _
          rw [ih P2, show m + 1 + j = (m + j) + 1 from by omega, List.getD_cons_succ]

theorem getD_take {α : Type} (P : List α) (m : Nat) (j : Nat) (hj : j < m) (d : α) :
    (P.take m).getD j d = P.getD j d := by
  induction P generalizing m j with
  | nil => simp
  | cons p P2 ih =>
      cases m with
      | zero => omega
      | succ m2 =>
          cases j with
          | zero => rfl
          | succ j2 =>
              show (P2.take m2).getD j2 d = P2.getD j2 d
              exact ih m2 j2 (by omega)

theorem mem_slice_getD {α : Type} (P : List α) (lo m : Nat) (g d : α)
    (hg : g ∈ (P.drop lo).take m) :
    ∃ i, lo ≤ i ∧ i < lo + m ∧ i < P.length ∧ P.getD i d = g := by
  rw [List.mem_iff_getElem] at hg
  rcases hg with ⟨j, hj, hval⟩
  have hj2 : j < m ∧ lo + j < P.length := by
    rw [List.length_take, List.length_drop] at hj
    omega
  refine ⟨lo + j, by omega, by omega, hj2.2, ?_⟩
  rw [← getD_drop P lo j d, ← getD_take (P.drop lo) m j hj2.1 d,
    List.getD_eq_getElem?_getD, List.getElem?_eq_getElem hj]
  rw [Option.getD_some, hval]


theorem chain_sep_head (l : List (Int × Int)) :
    ∀ g0 : Int × Int, (∀ g ∈ l, g.1 ≤ g.2) →
      List.Chain' (fun g g2 => g.2 < g2.1) (g0 :: l) → ∀ g ∈ l, g0.2 < g.1 := by
  induction l with
  | nil => intro g0 _ _ g hg; simp at hg
  | cons g1 t ih =>
      intro g0 hwf hc g hg
      rcases hc with _ | ⟨h01, hrest⟩
      rcases List.mem_cons.mp hg with rfl | hg
      · exact h01
      · have h12 := ih g1 (fun q hq => hwf q (List.mem_cons_of_mem _ hq)) hrest g hg
        have hw : g1.1 ≤ g1.2 := hwf g1 (by simp)
        omega

theorem chain_sep_pairwise (l : List (Int × Int)) (hwf : ∀ g ∈ l, g.1 ≤ g.2)
    (hc : List.Chain' (fun g g2 => g.2 < g2.1) l) :
    l.Pairwise (fun g g2 => g.2 < g2.1) := by
  induction l with
  | nil => exact List.Pairwise.nil
  | cons g0 t ih =>
      rw [List.pairwise_cons]
      refine ⟨chain_sep_head t g0 (fun q hq => hwf q (List.mem_cons_of_mem _ hq)) hc, ?_⟩
      exact ih (fun q hq => hwf q (List.mem_cons_of_mem _ hq)) hc.tail

/-- All the facts about the spans of a `min_dist = 0` merge of a well-formed
collection that the Complement Engine proof consumes. -/
theorem mergedSpanPairs_facts (starts ends : List Int)
    (hlen : starts.length = ends.length)
    (hwf : ∀ p ∈ starts.zip ends, p.1 ≤ p.2) :
    (∀ g ∈ mergedSpanPairs starts ends, g.1 ≤ g.2)
    ∧ (mergedSpanPairs starts ends).Pairwise (fun g g2 => g.2 < g2.1)
    ∧ (∀ x, coveredBy x (mergedSpanPairs starts ends) ↔ coveredBy x (starts.zip ends))
    ∧ (merge_intervals starts ends (some 0)).2.1
        = (mergedSpanPairs starts ends).map Prod.fst
    ∧ (merge_intervals starts ends (some 0)).2.2
        = (mergedSpanPairs starts ends).map Prod.snd
    ∧ ((mergedSpanPairs starts ends).map Prod.fst).Pairwise (fun a b => a ≤ b)
    ∧ ((mergedSpanPairs starts ends).map Prod.snd).Pairwise (fun a b => a ≤ b) := by
  cases hcS : mergeSortedStarts starts ends with
  | nil =>
      have hz := mergeSortedStarts_length starts ends
      rw [hcS] at hz
      have hz2 : starts = [] := List.eq_nil_of_length_eq_zero (by simpa using hz.symm)
      subst hz2
      have hz3 : mergedSpanPairs [] ends = [] := rfl
      refine ⟨by simp [hz3], by simp [hz3], ?_, rfl, rfl, by simp [hz3], by simp [hz3]⟩
      intro x
      rw [hz3]
      show coveredBy x [] ↔ coveredBy x []
      exact Iff.rfl
  | cons s0 S2 =>
      cases hcE : mergeSortedEnds starts ends with
      | nil =>
          have hz := mergeSortedStarts_length starts ends
          have hz2 := mergeSortedEnds_length starts ends
          rw [hcS] at hz
          rw [hcE] at hz2
          rw [← hz2] at hz
          simp at hz
      | cons e0 E2 =>
          have hlen2 : S2.length = E2.length := by
            have hz := mergeSortedStarts_length starts ends
            have hz2 := mergeSortedEnds_length starts ends
            rw [hcS] at hz
            rw [hcE] at hz2
            simp only [List.length_cons] at hz hz2
            omega
          rcases merge_spans_eq starts ends (some 0) s0 e0 S2 E2 hcS hcE with ⟨h1, h2⟩
          have hP : mergedSpanPairs starts ends
              = spansRec (some 0) s0 e0 (S2.zip E2) := by
            unfold mergedSpanPairs
            rw [h1, h2, List.zip_map']
            have : (fun g : Int × Int => (g.1, g.2)) = id := by
              funext g
              rfl
            rw [this, List.map_id]
          -- well-formedness of the sorted pairs
          have hperm := mergeZip_perm starts ends hlen
          rw [hcS, hcE, List.zip_cons_cons] at hperm
          have hwfSE : ∀ p ∈ (s0, e0) :: S2.zip E2, p.1 ≤ p.2 := by
            intro p hp
            exact hwf p (hperm.mem_iff.mp hp)
          have hwfT : ∀ p ∈ S2.zip E2, p.1 ≤ p.2 :=
            fun p hp => hwfSE p (List.mem_cons_of_mem _ hp)
          have hs0e0 : s0 ≤ e0 := hwfSE (s0, e0) (by simp)
          have hSp := mergeSortedStarts_pairwise starts ends
          rw [hcS] at hSp
          have hmapfst : (S2.zip E2).map Prod.fst = S2 :=
            List.map_fst_zip S2 E2 (le_of_eq hlen2)
          have hSpcons : (s0 :: (S2.zip E2).map Prod.fst).Pairwise
              (fun a b => a ≤ b) := by
            rw [hmapfst]
            exact hSp
          rcases List.pairwise_cons.mp hSpcons with ⟨hs0le, hS2p⟩
          -- the individual facts
          have fwf : ∀ g ∈ mergedSpanPairs starts ends, g.1 ≤ g.2 := by
            rw [hP]
            exact spansRec_wf (some 0) (S2.zip E2) s0 e0 hwfT hs0e0
          have fchain : (mergedSpanPairs starts ends).Chain'
              (fun g g2 => g.2 < g2.1) := by
            rw [hP]
            have hc := spansRec_chain (some 0) (S2.zip E2) s0 e0
            apply List.Chain'.imp _ hc
            intro g g2 hrel
            have : decide (g2.1 > g.2 + 0) = true := hrel
            simpa using of_decide_eq_true this
          have fsep := chain_sep_pairwise _ fwf fchain
          have fcover : ∀ x, coveredBy x (mergedSpanPairs starts ends)
              ↔ coveredBy x (starts.zip ends) := by
            intro x
            rw [hP]
            rw [spansRec_cover x (S2.zip E2) s0 e0 hwfT
              (fun q hq => hs0le q.1 (List.mem_map_of_mem Prod.fst hq))
              hS2p hs0e0]
            rw [← coveredBy_cons x (s0, e0) (S2.zip E2)]
            exact coveredBy_of_perm x _ _ hperm
          have ffst : (merge_intervals starts ends (some 0)).2.1
              = (mergedSpanPairs starts ends).map Prod.fst := by
            rw [hP, h1]
          have fsnd : (merge_intervals starts ends (some 0)).2.2
              = (mergedSpanPairs starts ends).map Prod.snd := by
            rw [hP, h2]
          have ffstp : ((mergedSpanPairs starts ends).map Prod.fst).Pairwise
              (fun a b => a ≤ b) := by
            rw [hP]
            exact spansRec_fst_pairwise (some 0) (S2.zip E2) s0 e0 hSpcons
          have fsndp : ((mergedSpanPairs starts ends).map Prod.snd).Pairwise
              (fun a b => a ≤ b) := by
            rw [hP]
            exact spansRec_snd_pairwise (some 0) (S2.zip E2) s0 e0
          exact ⟨fwf, fsep, fcover, ffst, fsnd, ffstp, fsndp⟩

/-!  ### The gap structure of the Complement Engine  -/

theorem gaps_cover (bHi x : Int) : ∀ (K : List (Int × Int)) (a : Int),
    (∀ g ∈ K, g.1 ≤ g.2) → K.Pairwise (fun g g2 => g.2 < g2.1) →
    (∀ g ∈ K, g.1 < bHi) → (∀ g ∈ K, a ≤ g.2) →
    (coveredBy x ((a :: K.map Prod.snd).zip (K.map Prod.fst ++ [bHi]))
      ↔ ((a ≤ x ∧ x < bHi) ∧ ¬ coveredBy x K)) := by
  intro K
  induction K with
  | nil =>
      intro a _ _ _ _
      show coveredBy x [(a, bHi)] ↔ _
      rw [coveredBy_cons]
      have hnone := coveredBy_nil x
      constructor
      · rintro (⟨h1, h2⟩ | h)
        · exact ⟨⟨h1, h2⟩, hnone⟩
        · exact absurd h hnone
      · rintro ⟨⟨h1, h2⟩, _⟩
        exact Or.inl ⟨h1, h2⟩
  | cons g1 K2 ih =>
      intro a hwf hsep hhi hae
      rcases List.pairwise_cons.mp hsep with ⟨hsep1, hsepT⟩
      have hwf1 : g1.1 ≤ g1.2 := hwf g1 (by simp)
      have hhi1 : g1.1 < bHi := hhi g1 (by simp)
      have hwfT : ∀ g ∈ K2, g.1 ≤ g.2 := fun g hg => hwf g (List.mem_cons_of_mem _ hg)
      have hhiT : ∀ g ∈ K2, g.1 < bHi := fun g hg => hhi g (List.mem_cons_of_mem _ hg)
      have haeT : ∀ g ∈ K2, g1.2 ≤ g.2 :=
        fun g hg => le_trans (le_of_lt (hsep1 g hg)) (hwfT g hg)
      have hrec := ih g1.2 hwfT hsepT hhiT haeT
      show coveredBy x ((a, g1.1)
        :: (g1.2 :: K2.map Prod.snd).zip (K2.map Prod.fst ++ [bHi])) ↔ _
      rw [coveredBy_cons, hrec, coveredBy_cons]
      constructor
      · rintro (⟨h1, h2⟩ | ⟨⟨h3, h4⟩, h5⟩)
        · refine ⟨⟨h1, lt_trans h2 hhi1⟩, ?_⟩
          rintro (⟨h6, _⟩ | ⟨g, hg, h6, _⟩)
          · omega
          · have := hsep1 g hg
            have := hwfT g hg
            omega
        · refine ⟨⟨le_trans (hae g1 (by simp)) h3, h4⟩, ?_⟩
          rintro (⟨_, h6⟩ | hcov)
          · omega
          · exact h5 hcov
      · rintro ⟨⟨h1, h2⟩, h3⟩
        rcases lt_or_le x g1.1 with h4 | h4
        · exact Or.inl ⟨h1, h4⟩
        · rcases lt_or_le x g1.2 with h5 | h5
          · exact absurd (Or.inl ⟨h4, h5⟩) h3
          · exact Or.inr ⟨⟨h5, h2⟩, fun hcov => h3 (Or.inr hcov)⟩

theorem gaps_chain (bHi : Int) : ∀ (K : List (Int × Int)) (a : Int),
    (∀ g ∈ K, g.1 ≤ g.2) → K.Pairwise (fun g g2 => g.2 < g2.1) →
    (∀ g ∈ K, g.1 < bHi) →
    ((a :: K.map Prod.snd).zip (K.map Prod.fst ++ [bHi])).Chain'
      (fun g g2 => g.2 ≤ g2.1 ∧ g.2 ≤ g2.2) := by
  intro K
  induction K with
  | nil => intro a _ _ _; simp
  | cons g1 K2 ih =>
      intro a hwf hsep hhi
      rcases List.pairwise_cons.mp hsep with ⟨hsep1, hsepT⟩
      have hwf1 : g1.1 ≤ g1.2 := hwf g1 (by simp)
      have hhi1 : g1.1 < bHi := hhi g1 (by simp)
      have hrec := ih g1.2 (fun g hg => hwf g (List.mem_cons_of_mem _ hg)) hsepT
        (fun g hg => hhi g (List.mem_cons_of_mem _ hg))
      show List.Chain' _ ((a, g1.1)
        :: (g1.2 :: K2.map Prod.snd).zip (K2.map Prod.fst ++ [bHi]))
      cases K2 with
      | nil =>
          refine List.Chain'.cons ⟨hwf1, le_of_lt hhi1⟩ ?_
          simpa using hrec
      | cons g2 K3 =>
          refine List.Chain'.cons ⟨hwf1, ?_⟩ hrec
          have h12 : g1.2 < g2.1 := hsep1 g2 (by simp)
          exact le_trans hwf1 (le_of_lt h12)

theorem coveredBy_dropLast_iff (x : Int) (l : List (Int × Int))
    (h : (l.getLastD (0, 0)).2 ≤ (l.getLastD (0, 0)).1) :
    coveredBy x l.dropLast ↔ coveredBy x l := by
  rcases List.eq_nil_or_concat l with rfl | ⟨l2, g, rfl⟩
  · exact Iff.rfl
  · rw [List.concat_eq_append] at h ⊢
    rw [List.dropLast_concat, coveredBy_append, coveredBy_cons]
    have hg : (l2 ++ [g]).getLastD (0, 0) = g := by
      rw [List.getLastD_eq_getLast? ]
      rw [List.getLast?_concat]
      rfl
    rw [hg] at h
    have hnone := coveredBy_nil x
    constructor
    · intro h2
      exact Or.inl h2
    · rintro (h2 | ⟨h3, h4⟩ | h2)
      · exact h2
      · omega
      · exact absurd h2 hnone

theorem coveredBy_tail_iff (x : Int) (l : List (Int × Int))
    (h : (l.getD 0 (0, 0)).2 ≤ (l.getD 0 (0, 0)).1) :
    coveredBy x (l.drop 1) ↔ coveredBy x l := by
  cases l with
  | nil => exact Iff.rfl
  | cons g t =>
      show coveredBy x t ↔ _
      rw [coveredBy_cons]
      rw [List.getD_cons_zero] at h
      constructor
      · intro h2
        exact Or.inr h2
      · rintro (⟨h3, h4⟩ | h2)
        · omega
        · exact h2

theorem zip_getLastD (a b : List Int) (h : a.length = b.length) :
    ∀ (da db : Int), (a.zip b).getLastD (da, db) = (a.getLastD da, b.getLastD db) := by
  induction a generalizing b with
  | nil =>
      intro da db
      have : b = [] := List.eq_nil_of_length_eq_zero (by simpa using h.symm)
      subst this
      rfl
  | cons x xs ih =>
      intro da db
      cases b with
      | nil => simp at h
      | cons y ys =>
          rw [List.zip_cons_cons, List.getLastD_cons, ih ys (by simpa using h) x y,
            List.getLastD_cons, List.getLastD_cons]

theorem slice_getD_mem {α : Type} (P : List α) (lo hi i : Nat) (d : α)
    (h1 : lo ≤ i) (h2 : i < hi) (h3 : hi ≤ P.length) :
    P.getD i d ∈ (P.drop lo).take (hi - lo) := by
  have hlen : i - lo < ((P.drop lo).take (hi - lo)).length := by
    rw [List.length_take, List.length_drop]
    omega
  have hval : ((P.drop lo).take (hi - lo)).getD (i - lo) d = P.getD i d := by
    rw [getD_take _ _ _ (by omega) d, getD_drop,
      show lo + (i - lo) = i from by omega]
  rw [← hval, List.getD_eq_getElem?_getD, List.getElem?_eq_getElem hlen,
    Option.getD_some]
  exact List.getElem_mem hlen

theorem zip_getD_of_lt (a b : List Int) (i : Nat) (h1 : i < a.length)
    (h2 : i < b.length) :
    (a.zip b).getD i (0, 0) = (a.getD i 0, b.getD i 0) := by
  have hz : i < (a.zip b).length := by rw [List.length_zip]; omega
  rw [List.getD_eq_getElem?_getD, List.getElem?_eq_getElem hz, Option.getD_some,
    List.getElem_zip]
  rw [List.getD_eq_getElem?_getD, List.getElem?_eq_getElem h1, Option.getD_some]
  rw [List.getD_eq_getElem?_getD, List.getElem?_eq_getElem h2, Option.getD_some]

/-- The full correctness package for the Complement Engine on well-formed
input: the output gaps are pairwise separated in ascending order, a point is
covered by them exactly when it lies in the bounds and outside every input
interval, and every gap lies between the bounds. -/
theorem complement_master (starts ends : List Int) (bLo bHi : Int)
    (hlen : starts.length = ends.length)
    (hwf : ∀ p ∈ starts.zip ends, p.1 ≤ p.2) :
    (complement_intervals starts ends bLo bHi).Pairwise gapLE
    ∧ (∀ x : Int, coveredBy x (complement_intervals starts ends bLo bHi)
        ↔ (bLo ≤ x ∧ x < bHi ∧ ¬ coveredBy x (starts.zip ends)))
    ∧ (∀ g ∈ complement_intervals starts ends bLo bHi,
        bLo ≤ g.1 ∧ g.2 ≤ bHi) := by
  obtain ⟨fwf, fsep, fcover, ffst, fsnd, ffstp, fsndp⟩ :=
    mergedSpanPairs_facts starts ends hlen hwf
  have hloE : complementSliceLo starts ends bLo
      = countLE ((mergedSpanPairs starts ends).map Prod.snd) bLo := by
    unfold complementSliceLo
    rw [fsnd]
  have hhiE : complementSliceHi starts ends bHi
      = countLT ((mergedSpanPairs starts ends).map Prod.fst) bHi := by
    unfold complementSliceHi
    rw [ffst]
  set M := mergedSpanPairs starts ends with hMdef
  set K := (M.drop (complementSliceLo starts ends bLo)).take
    (complementSliceHi starts ends bHi - complementSliceLo starts ends bLo)
    with hKdef
  have hhiLe : complementSliceHi starts ends bHi ≤ M.length := by
    rw [hhiE]
    calc countLT (M.map Prod.fst) bHi ≤ (M.map Prod.fst).length :=
          countLT_le_length _ _
      _ = M.length := List.length_map _ _
  have hKsub : K.Sublist M := by
    rw [hKdef]
    exact (List.take_sublist _ _).trans (List.drop_sublist _ _)
  have hKwf : ∀ g ∈ K, g.1 ≤ g.2 := fun g hg => fwf g (hKsub.subset hg)
  have hKsep : K.Pairwise (fun g g2 => g.2 < g2.1) :=
    List.Pairwise.sublist hKsub fsep
  have hKidx : ∀ g ∈ K, ∃ i, complementSliceLo starts ends bLo ≤ i
      ∧ i < complementSliceHi starts ends bHi ∧ i < M.length
      ∧ M.getD i (0, 0) = g := by
    intro g hg
    rw [hKdef] at hg
    obtain ⟨i, h1, h2, h3, h4⟩ := mem_slice_getD M _ _ g (0, 0) hg
    exact ⟨i, h1, by omega, h3, h4⟩
  have hKhi : ∀ g ∈ K, g.1 < bHi := by
    intro g hg
    obtain ⟨i, h1, h2, h3, h4⟩ := hKidx g hg
    have h5 : i < (M.map Prod.fst).length := by
      rw [List.length_map]
      exact h3
    have h6 := (lt_countLT_iff (M.map Prod.fst) ffstp bHi i h5).mp
      (by rw [← hhiE]; exact h2)
    rw [getD_map_of_lt Prod.fst M i h3 (0, 0) 0, h4] at h6
    exact h6
  have hKlo : ∀ g ∈ K, bLo < g.2 := by
    intro g hg
    obtain ⟨i, h1, h2, h3, h4⟩ := hKidx g hg
    have h5 : i < (M.map Prod.snd).length := by
      rw [List.length_map]
      exact h3
    have h6 : ¬ (i < countLE (M.map Prod.snd) bLo) := by
      rw [← hloE]
      omega
    have h8 : ¬ ((M.map Prod.snd).getD i 0 ≤ bLo) :=
      fun hc => h6 ((lt_countLE_iff (M.map Prod.snd) fsndp bLo i h5).mpr hc)
    rw [getD_map_of_lt Prod.snd M i h3 (0, 0) 0, h4] at h8
    omega
  have hKM : ∀ x, bLo ≤ x → x < bHi → (coveredBy x K ↔ coveredBy x M) := by
    intro x hx1 hx2
    constructor
    · rintro ⟨p, hp, hc⟩
      exact ⟨p, hKsub.subset hp, hc⟩
    · rintro ⟨p, hp, hc1, hc2⟩
      obtain ⟨i, hiM, hpi⟩ := List.mem_iff_getElem.mp hp
      have hgi : M.getD i (0, 0) = p := by
        rw [List.getD_eq_getElem?_getD, List.getElem?_eq_getElem hiM,
          Option.getD_some, hpi]
      by_cases hcase1 : i < complementSliceLo starts ends bLo
      · have h5 : i < (M.map Prod.snd).length := by
          rw [List.length_map]
          exact hiM
        have h6 := (lt_countLE_iff (M.map Prod.snd) fsndp bLo i h5).mp
          (by rw [← hloE]; exact hcase1)
        rw [getD_map_of_lt Prod.snd M i hiM (0, 0) 0, hgi] at h6
        omega
      by_cases hcase2 : complementSliceHi starts ends bHi ≤ i
      · have h5 : i < (M.map Prod.fst).length := by
          rw [List.length_map]
          exact hiM
        have h6 : ¬ ((M.map Prod.fst).getD i 0 < bHi) := by
          intro hc
          have h7 := (lt_countLT_iff (M.map Prod.fst) ffstp bHi i h5).mpr hc
          rw [← hhiE] at h7
          omega
        rw [getD_map_of_lt Prod.fst M i hiM (0, 0) 0, hgi] at h6
        omega
      · refine ⟨p, ?_, hc1, hc2⟩
        rw [hKdef, ← hgi]
        exact slice_getD_mem M _ _ i (0, 0) (by omega) (by omega) hhiLe
  have hCs : complementCs starts ends bLo bHi = bLo :: K.map Prod.snd := by
    unfold complementCs
    rw [fsnd, hKdef, List.map_take, List.map_drop]
  have hCe : complementCe starts ends bLo bHi = K.map Prod.fst ++ [bHi] := by
    unfold complementCe
    rw [ffst, hKdef, List.map_take, List.map_drop]
  have hPairs : complementPairs starts ends bLo bHi
      = (bLo :: K.map Prod.snd).zip (K.map Prod.fst ++ [bHi]) := by
    unfold complementPairs
    rw [hCs, hCe]
  have hCsLen : (complementCs starts ends bLo bHi).length = K.length + 1 := by
    rw [hCs]
    simp
  have hCeLen : (complementCe starts ends bLo bHi).length = K.length + 1 := by
    rw [hCe]
    simp
  have hGcov := fun x => gaps_cover bHi x K bLo hKwf hKsep hKhi
    (fun g hg => le_of_lt (hKlo g hg))
  have hGchain := gaps_chain bHi K bLo hKwf hKsep hKhi
  have hPcov : ∀ x, coveredBy x (complementPairs starts ends bLo bHi) ↔
      (bLo ≤ x ∧ x < bHi ∧ ¬ coveredBy x (starts.zip ends)) := by
    intro x
    rw [hPairs, hGcov x]
    constructor
    · rintro ⟨⟨h1, h2⟩, h3⟩
      exact ⟨h1, h2, fun hc => h3 ((hKM x h1 h2).mpr ((fcover x).mpr hc))⟩
    · rintro ⟨h1, h2, h3⟩
      exact ⟨⟨h1, h2⟩, fun hc => h3 ((fcover x).mp ((hKM x h1 h2).mp hc))⟩
  have hImpl : complement_intervals starts ends bLo bHi
      = (if complementDropHead starts ends bLo bHi then
          (if complementDropTail starts ends bLo bHi
            then (complementPairs starts ends bLo bHi).dropLast
            else complementPairs starts ends bLo bHi).drop 1
         else (if complementDropTail starts ends bLo bHi
            then (complementPairs starts ends bLo bHi).dropLast
            else complementPairs starts ends bLo bHi)) := rfl
  have hQcov : ∀ x, coveredBy x (if complementDropTail starts ends bLo bHi
      then (complementPairs starts ends bLo bHi).dropLast
      else complementPairs starts ends bLo bHi) ↔
      coveredBy x (complementPairs starts ends bLo bHi) := by
    intro x
    by_cases hdt : complementDropTail starts ends bLo bHi = true
    · rw [if_pos hdt]
      apply coveredBy_dropLast_iff
      have hlast : (complementPairs starts ends bLo bHi).getLastD (0, 0)
          = ((complementCs starts ends bLo bHi).getLastD 0,
             (complementCe starts ends bLo bHi).getLastD 0) := by
        unfold complementPairs
        exact zip_getLastD _ _ (by rw [hCsLen, hCeLen]) 0 0
      rw [hlast]
      unfold complementDropTail at hdt
      exact of_decide_eq_true hdt
    · rw [if_neg hdt]
  have hOutcov : ∀ x, coveredBy x (complement_intervals starts ends bLo bHi) ↔
      coveredBy x (complementPairs starts ends bLo bHi) := by
    intro x
    rw [hImpl]
    by_cases hdh : complementDropHead starts ends bLo bHi = true
    · rw [if_pos hdh, ← hQcov x]
      apply coveredBy_tail_iff
      have hhead : (complementPairs starts ends bLo bHi).getD 0 (0, 0)
          = ((complementCs starts ends bLo bHi).getD 0 0,
             (complementCe starts ends bLo bHi).getD 0 0) := by
        unfold complementPairs
        exact zip_getD_of_lt _ _ 0 (by rw [hCsLen]; omega) (by rw [hCeLen]; omega)
      have hcond : ((complementPairs starts ends bLo bHi).getD 0 (0, 0)).2
          ≤ ((complementPairs starts ends bLo bHi).getD 0 (0, 0)).1 := by
        rw [hhead]
        unfold complementDropHead at hdh
        exact of_decide_eq_true hdh
      by_cases hdt : complementDropTail starts ends bLo bHi = true
      · rw [if_pos hdt]
        by_cases hlen2 : (complementPairs starts ends bLo bHi).length < 2
        · have h0 : (complementPairs starts ends bLo bHi).dropLast = [] := by
            apply List.eq_nil_of_length_eq_zero
            rw [List.length_dropLast]
            omega
          rw [h0]
          decide
        · rw [getD_dropLast_of_lt _ 0 (by omega) (0, 0)]
          exact hcond
      · rw [if_neg hdt]
        exact hcond
    · rw [if_neg hdh]
      exact hQcov x
  haveI instTransSep : IsTrans (Int × Int)
      (fun g g2 => g.2 ≤ g2.1 ∧ g.2 ≤ g2.2) :=
    ⟨fun _ b _ h1 h2 => ⟨le_trans h1.2 h2.1, le_trans h1.2 h2.2⟩⟩
  have hPpw : (complementPairs starts ends bLo bHi).Pairwise
      (fun g g2 => g.2 ≤ g2.1 ∧ g.2 ≤ g2.2) := by
    rw [hPairs]
    exact List.chain'_iff_pairwise.mp hGchain
  have houtsub : (complement_intervals starts ends bLo bHi).Sublist
      (complementPairs starts ends bLo bHi) := by
    rw [hImpl]
    have h1 : (if complementDropTail starts ends bLo bHi
        then (complementPairs starts ends bLo bHi).dropLast
        else complementPairs starts ends bLo bHi).Sublist
        (complementPairs starts ends bLo bHi) := by
      split
      · exact List.dropLast_sublist _
      · exact List.Sublist.refl _
    split
    · exact (List.drop_sublist _ _).trans h1
    · exact h1
  refine ⟨List.Pairwise.imp (fun h => h.1) (List.Pairwise.sublist houtsub hPpw),
    fun x => (hOutcov x).trans (hPcov x), ?_⟩
  intro g hg
  have hgp : g ∈ complementPairs starts ends bLo bHi := houtsub.subset hg
  rw [hPairs] at hgp
  obtain ⟨ga, gb⟩ := g
  obtain ⟨h1, h2⟩ := List.of_mem_zip hgp
  constructor
  · rcases List.mem_cons.mp h1 with rfl | h3
    · exact le_refl _
    · obtain ⟨k, hk, hk2⟩ := List.mem_map.mp h3
      rw [← hk2]
      exact le_of_lt (hKlo k hk)
  · rcases List.mem_append.mp h2 with h3 | h3
    · obtain ⟨k, hk, hk2⟩ := List.mem_map.mp h3
      rw [← hk2]
      exact le_of_lt (hKhi k hk)
    · exact le_of_eq (List.mem_singleton.mp h3)

/-- C5: for every well-formed interval collection (`end >= start`, parallel
arrays) and bounds `lo <= hi`, the Complement Engine output is a disjoint,
ascending sequence of gaps, and a point is covered by the gaps exactly when
it lies in `[lo, hi)` and is not covered by any input interval — so the
union of the gaps with the bounds-restricted union of the input intervals is
exactly `[lo, hi)`, with no double coverage. -/
theorem C5_complement_correct (starts ends : List Int) (bLo bHi : Int)
    (hlen : starts.length = ends.length)
    (hwf : ∀ p ∈ starts.zip ends, p.1 ≤ p.2)
    (hb : bLo ≤ bHi) :
    (complement_intervals starts ends bLo bHi).Pairwise gapLE
    ∧ ∀ x : Int, coveredBy x (complement_intervals starts ends bLo bHi)
        ↔ (bLo ≤ x ∧ x < bHi ∧ ¬ coveredBy x (starts.zip ends)) := by
  have _hb := hb
  obtain ⟨h1, h2, _⟩ := complement_master starts ends bLo bHi hlen hwf
  exact ⟨h1, h2⟩

theorem C5_complement_correct_witness :
    (complement_intervals [1, 10] [5, 12] 0 15).Pairwise gapLE
    ∧ ∀ x : Int, coveredBy x (complement_intervals [1, 10] [5, 12] 0 15)
        ↔ (0 ≤ x ∧ x < 15 ∧ ¬ coveredBy x (List.zip [1, 10] [5, 12])) :=
  C5_complement_correct [1, 10] [5, 12] 0 15 (by decide) (by decide) (by decide)

/-- C10, counterexample: for the input consisting of the single interval
`[5, 2^63 - 1)`, `complement_intervals` with the bounds argument omitted
returns only the gap `(0, 5)`: no reported gap ends at `2^63 - 1`, so the
trailing gap does not in general end at `2^63 - 1` (here it is suppressed as
degenerate). -/
theorem C10_complement_default_cex :
    complementDefault [5] [9223372036854775807] = [(0, 5)]
    ∧ ¬ ∃ g ∈ complementDefault [5] [9223372036854775807],
        g.2 = (9223372036854775807 : Int) := by
  decide

/-- C10, amended: with the bounds argument omitted, `complement_intervals`
uses the default bounds `(0, 2^63 - 1)`; consequently, for well-formed
parallel input, every reported gap starts at or after coordinate `0` and
ends at or before `2^63 - 1` (gaps at negative coordinates are never
reported), a point is covered by the gaps exactly when it lies in
`[0, 2^63 - 1)` and is covered by no input interval (so coverage fully below
coordinate `0` is ignored), and some gap ends at exactly `2^63 - 1` provided
the input does not cover the point `2^63 - 2`. -/
theorem C10_complement_default_amended (starts ends : List Int)
    (hlen : starts.length = ends.length)
    (hwf : ∀ p ∈ starts.zip ends, p.1 ≤ p.2) :
    complementDefault starts ends = complement_intervals starts ends 0 int64max
    ∧ (∀ g ∈ complementDefault starts ends, 0 ≤ g.1 ∧ g.2 ≤ int64max)
    ∧ (∀ x : Int, coveredBy x (complementDefault starts ends)
        ↔ (0 ≤ x ∧ x < int64max ∧ ¬ coveredBy x (starts.zip ends)))
    ∧ (¬ coveredBy (int64max - 1) (starts.zip ends)
        → ∃ g ∈ complementDefault starts ends, g.2 = int64max) := by
  obtain ⟨_, hcov, hbounds⟩ := complement_master starts ends 0 int64max hlen hwf
  refine ⟨rfl, hbounds, hcov, ?_⟩
  intro hnc
  have hx : coveredBy (int64max - 1) (complement_intervals starts ends 0 int64max) :=
    (hcov (int64max - 1)).mpr ⟨by decide, by decide, hnc⟩
  obtain ⟨g, hg, h1, h2⟩ := hx
  refine ⟨g, hg, ?_⟩
  have h3 := (hbounds g hg).2
  omega

theorem C10_complement_default_amended_witness :
    complementDefault [1] [5] = complement_intervals [1] [5] 0 int64max
    ∧ (∀ g ∈ complementDefault [1] [5], 0 ≤ g.1 ∧ g.2 ≤ int64max)
    ∧ (∀ x : Int, coveredBy x (complementDefault [1] [5])
        ↔ (0 ≤ x ∧ x < int64max ∧ ¬ coveredBy x (List.zip [1] [5])))
    ∧ (¬ coveredBy (int64max - 1) (List.zip [1] [5])
        → ∃ g ∈ complementDefault [1] [5], g.2 = int64max) :=
  C10_complement_default_amended [1] [5] (by decide) (by decide)

theorem complement_intervals_empty (lo hi : Int) :
    complement_intervals [] [] lo hi = if lo < hi then [(lo, hi)] else [] := by
  have hpairs : complementPairs [] [] lo hi = [(lo, hi)] := rfl
  have himpl : complement_intervals [] [] lo hi
      = (if complementDropHead [] [] lo hi then
          (if complementDropTail [] [] lo hi
            then (complementPairs [] [] lo hi).dropLast
            else complementPairs [] [] lo hi).drop 1
         else (if complementDropTail [] [] lo hi
            then (complementPairs [] [] lo hi).dropLast
            else complementPairs [] [] lo hi)) := rfl
  have hdh : complementDropHead [] [] lo hi = decide (lo ≥ hi) := rfl
  have hdt : complementDropTail [] [] lo hi = decide (lo ≥ hi) := rfl
  by_cases hlh : lo < hi
  · rw [himpl, hdh, hdt, hpairs, decide_eq_false (not_le.mpr hlh), if_pos hlh]
    rfl
  · rw [himpl, hdh, hdt, hpairs, decide_eq_true (not_lt.mp hlh), if_neg hlh]
    rfl

theorem closest_intervals_empty (k : Int) (hk : 1 ≤ k) :
    closest_intervals [] [] [] [] k none false false false
      = .error "index out of bounds" := by
  have hud : closest_intervals_nooverlap [] [] [] [] none
      (if (false : Bool) then 0 else k) (if (false : Bool) then 0 else k)
      = ([], []) := by
    have h : (0:Int) < (if (false : Bool) then 0 else k) := by
      show (0:Int) < k
      omega
    unfold closest_intervals_nooverlap
    simp only [if_pos h]
    rfl
  have hstep : closest_intervals [] [] [] [] k none false false false
      = npIndexChecked [] (arangeMulti2 [0] [0 + min k ((1:Int) - 0)]) := by
    unfold closest_intervals
    rw [hud]
    rfl
  rw [hstep, show (0:Int) + min k ((1:Int) - 0) = 1 from by omega]
  rfl

/-- C2, counterexample: with empty interval collections, the Complement
Engine under its default bounds returns the single full-range gap
`(0, 2^63 - 1)` — a nonempty output — and the Nearest-Neighbor Finder fails
outright (its final gather fancy-indexes position `0` of an empty candidate
array), so not every component completes without failure with empty
outputs. -/
theorem C2_empty_inputs_cex :
    complementDefault [] [] = [(0, int64max)]
    ∧ closest_intervals [] [] [] [] 1 none false false false
      = .error "index out of bounds" :=
  ⟨rfl, rfl⟩

/-- C2, amended: with empty interval collections the Range Expander, the
Overlap Join and the Merger complete without failure and produce empty
outputs; the Complement Engine completes without failure but returns the
single gap spanning its bounds (empty only when `lo >= hi`); and the
Nearest-Neighbor Finder with `k >= 1` fails with an index-out-of-bounds
error. -/
theorem C2_empty_inputs_amended (d : Option Int) (k : Int) (hk : 1 ≤ k) :
    arange_multi [] (some []) none = .ok []
    ∧ arange_multi [] none (some []) = .ok []
    ∧ overlap_intervals [] [] [] [] = []
    ∧ merge_intervals [] [] d = ([], [], [])
    ∧ (∀ lo hi : Int, complement_intervals [] [] lo hi
        = if lo < hi then [(lo, hi)] else [])
    ∧ closest_intervals [] [] [] [] k none false false false
      = .error "index out of bounds" :=
  ⟨rfl, rfl, rfl, merge_intervals_nil [] d,
    complement_intervals_empty, closest_intervals_empty k hk⟩

theorem C2_empty_inputs_amended_witness :
    arange_multi [] (some []) none = .ok []
    ∧ arange_multi [] none (some []) = .ok []
    ∧ overlap_intervals [] [] [] [] = []
    ∧ merge_intervals [] [] (some 0) = ([], [], [])
    ∧ (∀ lo hi : Int, complement_intervals [] [] lo hi
        = if lo < hi then [(lo, hi)] else [])
    ∧ closest_intervals [] [] [] [] 2 none false false false
      = .error "index out of bounds" :=
  C2_empty_inputs_amended (some 0) 2 (by decide)

theorem npLexsortChecked_len_mismatch (k1 t : List Int) (rest : List (List Int))
    (hne : t.length ≠ k1.length) :
    npLexsortChecked (k1 :: t :: rest) = .error "all keys need to be the same shape" := by
  have hcond : ((t :: rest).all (fun k2 => decide (k2.length = k1.length))) = false := by
    rw [List.all_eq_false]
    exact ⟨t, by simp, by simpa using hne⟩
  simp only [npLexsortChecked]
  rw [hcond]
  rfl

/-- C6, counterexample: the upstream pass sorts set 2 with the tie-break key
descending, not ascending (two set-2 intervals with equal ends and tie
values 1 and 2 come back in order [1, 0]); and with a tie-break sequence
supplied, the final sort receives the raw set-2-length tie array as a key,
so whenever the concatenated candidate count differs from the set-2 size the
call fails with numpy's shape-mismatch error instead of returning sorted
survivors. -/
theorem C6_tiebreak_order_cex :
    closestUpOrder [0, 0] (some [1, 2]) = [1, 0]
    ∧ closest_intervals [5] [6] [0, 2, 8] [1, 3, 9] 1 (some [10, 20, 30])
        false false false
      = .error "all keys need to be the same shape" :=
  ⟨rfl, rfl⟩

/-- C6, amended: with a tie-break sequence over set 2 supplied, the upstream
pass sorts set 2 by (end ascending, tie-break DESCENDING, index ascending)
and the downstream pass by (start ascending, tie-break ascending, index
ascending); and the final sort is handed the raw tie-break array (not the
candidates' tie-break values), so whenever the concatenated candidate count
differs from the tie-break array's length the whole call fails with numpy's
key-shape error. -/
theorem C6_tiebreak_order_amended (s1 e1 s2 e2 t : List Int) (k : Int)
    (io iu idn : Bool)
    (hne : ((closest_intervals_nooverlap s1 e1 s2 e2 (some t)
          (if iu then 0 else k) (if idn then 0 else k)).1
        ++ (closest_intervals_nooverlap s1 e1 s2 e2 (some t)
          (if iu then 0 else k) (if idn then 0 else k)).2
        ++ (if io then [] else overlap_intervals s1 e1 s2 e2)).length
      ≠ t.length) :
    (closestUpOrder e2 (some t)).Pairwise
        (keyLE (fun p => [e2.getD p 0, -(t.getD p 0)]))
    ∧ (closestDnOrder s2 (some t)).Pairwise
        (keyLE (fun p => [s2.getD p 0, t.getD p 0]))
    ∧ closest_intervals s1 e1 s2 e2 k (some t) io iu idn
      = .error "all keys need to be the same shape" := by
  refine ⟨argLexsort_pairwise e2.length _ (fun p q => rfl),
    argLexsort_pairwise s2.length _ (fun p q => rfl), ?_⟩
  simp only [closest_intervals]
  rw [npLexsortChecked_len_mismatch]
  · rw [List.length_map]
    exact Ne.symm hne

theorem C6_tiebreak_order_amended_witness :
    (closestUpOrder [1, 3, 9] (some [10, 20, 30])).Pairwise
        (keyLE (fun p => [List.getD [1, 3, 9] p 0, -(List.getD [10, 20, 30] p 0)]))
    ∧ (closestDnOrder [0, 2, 8] (some [10, 20, 30])).Pairwise
        (keyLE (fun p => [List.getD [0, 2, 8] p 0, List.getD [10, 20, 30] p 0]))
    ∧ closest_intervals [5] [6] [0, 2, 8] [1, 3, 9] 1 (some [10, 20, 30])
        false false false
      = .error "all keys need to be the same shape" :=
  C6_tiebreak_order_amended [5] [6] [0, 2, 8] [1, 3, 9] [10, 20, 30] 1
    false false false (by decide)

theorem overlap_intervals_eq (s1 e1 s2 e2 : List Int) :
    overlap_intervals s1 e1 s2 e2 = npIndexPair (ovDec s1 e1 s2 e2)
      (argLexsort (ovDec s1 e1 s2 e2).length
        (fun r => [((ovDec s1 e1 s2 e2).getD r (0, 0)).1,
                   ((ovDec s1 e1 s2 e2).getD r (0, 0)).2])) := rfl

theorem getD_append_right {α : Type} (l l2 : List α) (j : Nat) (d : α) :
    (l ++ l2).getD (l.length + j) d = l2.getD j d := by
  rw [← getD_drop (l ++ l2) l.length j d, List.drop_left]

theorem zip_wf_getD (a b : List Int) (hlen : a.length = b.length)
    (hwf : ∀ p ∈ a.zip b, p.1 ≤ p.2) (i : Nat) (hi : i < a.length) :
    a.getD i 0 ≤ b.getD i 0 := by
  have hz : i < (a.zip b).length := by rw [List.length_zip]; omega
  have hmem : (a.getD i 0, b.getD i 0) ∈ a.zip b := by
    rw [← zip_getD_of_lt a b i hi (by omega), List.getD_eq_getElem?_getD,
      List.getElem?_eq_getElem hz, Option.getD_some]
    exact List.getElem_mem hz
  exact hwf _ hmem

theorem getD_range (n i : Nat) (hi : i < n) (d : Nat) :
    (List.range n).getD i d = i := by
  rw [List.getD_eq_getElem?_getD,
    List.getElem?_eq_getElem (by rw [List.length_range]; exact hi),
    Option.getD_some, List.getElem_range]

theorem overlapSignedIds_getD_lt (n1 n2 u : Nat) (hu : u < n1) :
    (overlapSignedIds n1 n2).getD u 0 = -(Int.ofNat u + 1) := by
  unfold overlapSignedIds
  rw [getD_append_of_lt _ _ u (by rw [List.length_map, List.length_range]; exact hu),
    getD_map_of_lt _ _ u (by rw [List.length_range]; exact hu) 0 0,
    getD_range n1 u hu 0]

theorem overlapSignedIds_getD_ge (n1 n2 u : Nat) (h1 : n1 ≤ u)
    (h2 : u < n1 + n2) :
    (overlapSignedIds n1 n2).getD u 0 = Int.ofNat (u - n1) + 1 := by
  unfold overlapSignedIds
  have hA : ((List.range n1).map (fun i => -(Int.ofNat i + 1))).length = n1 := by
    rw [List.length_map, List.length_range]
  have h3 := getD_append_right ((List.range n1).map (fun i => -(Int.ofNat i + 1)))
    ((List.range n2).map (fun j => Int.ofNat j + 1)) (u - n1) 0
  rw [hA, show n1 + (u - n1) = u from by omega] at h3
  rw [h3, getD_map_of_lt _ _ (u - n1) (by rw [List.length_range]; omega) 0 0,
    getD_range n2 (u - n1) (by omega) 0]

theorem npRepeat_map_map {α : Type} (l : List α) (g h : α → Int) :
    npRepeat (l.map g) (l.map h)
      = l.flatMap (fun x => List.replicate (h x).toNat (g x)) := by
  have h1 : List.zipWith (fun x r => List.replicate r.toNat x) (l.map g) (l.map h)
      = l.map (fun x => List.replicate (h x).toNat (g x)) := by
    rw [List.zipWith_map]
    exact List.zipWith_same _ _
  unfold npRepeat
  rw [h1]
  rfl

theorem zip_flatMap {α β γ : Type} (l : List α) (f : α → List β) (g : α → List γ)
    (hlen : ∀ x ∈ l, (f x).length = (g x).length) :
    (l.flatMap f).zip (l.flatMap g) = l.flatMap (fun x => (f x).zip (g x)) := by
  induction l with
  | nil => rfl
  | cons a t ih =>
      rw [List.flatMap_cons, List.flatMap_cons, List.flatMap_cons,
        List.zip_append (hlen a (by simp)),
        ih (fun x hx => hlen x (List.mem_cons_of_mem _ hx))]

theorem arangeMulti2_map_map {α : Type} (l : List α) (f g : α → Int)
    (hnn : ∀ x ∈ l, 0 ≤ g x - f x) :
    arangeMulti2 (l.map f) (l.map g)
      = l.flatMap (fun x => (List.range (g x - f x).toNat).map
          (fun t => f x + Int.ofNat t)) := by
  unfold arangeMulti2
  have h1 : List.zipWith (fun b a => b - a) (l.map g) (l.map f)
      = l.map (fun x => g x - f x) := by
    rw [List.zipWith_map]
    exact List.zipWith_same _ _
  rw [h1, arangeMultiCore_eq_joinRanges _ _
    (by rw [List.length_map, List.length_map])
    (by intro v hv
        obtain ⟨x, hx, rfl⟩ := List.mem_map.mp hv
        exact hnn x hx)]
  unfold joinRanges
  rw [List.zip_map' f (fun x => g x - f x) l, List.flatMap_map]

theorem zip_replicate_range (a : Int) (m : Nat) (f : Nat → Int) :
    (List.replicate m a).zip ((List.range m).map f)
      = (List.range m).map (fun t => (a, f t)) := by
  rw [show List.replicate m a = (List.range m).map (fun _ => a) from by
    rw [List.map_const', List.length_range], List.zip_map']

/-- The raw rows of the Overlap Join, fused into one flat map: one row
`(ids[p], ids[q])` for every surviving match start `p` and every sorted
position `q` in its window `[p+1, match_end_p)`. -/
theorem ovRaw_eq (s1 e1 s2 e2 : List Int) :
    ovRaw s1 e1 s2 e2 = (ovPF s1 e1 s2 e2).flatMap (fun x =>
      (List.range (Int.ofNat x.2 - Int.ofNat x.1 - 1).toNat).map
        (fun t => ((ovI s1 e1 s2 e2).getD x.1 0,
                   (ovI s1 e1 s2 e2).getD (x.1 + 1 + t) 0))) := by
  have hpf : ∀ x ∈ ovPF s1 e1 s2 e2, x.1 + 1 < x.2 := by
    intro x hx
    exact of_decide_eq_true (List.mem_filter.mp hx).2
  unfold ovRaw
  rw [npRepeat_map_map,
    arangeMulti2_map_map _ _ _ (by
      intro x hx
      have := hpf x hx
      simp only [Int.ofNat_eq_coe]
      omega),
    List.map_flatMap,
    zip_flatMap _ _ _ (by
      intro x hx
      rw [List.length_replicate, List.length_map, List.length_map,
        List.length_range]
      simp only [Int.ofNat_eq_coe]
      omega)]
  apply List.flatMap_congr
  intro x hx
  rw [List.map_map,
    show ((Int.ofNat x.2 : Int) - (Int.ofNat x.1 + 1)).toNat
      = ((Int.ofNat x.2 : Int) - Int.ofNat x.1 - 1).toNat from by
        simp only [Int.ofNat_eq_coe]
        omega,
    zip_replicate_range]
  apply List.map_eq_map_iff.mpr
  intro t ht
  rw [Function.comp_apply,
    show ((Int.ofNat x.1 + 1) + Int.ofNat t).toNat = x.1 + 1 + t from by
      simp only [Int.ofNat_eq_coe]
      omega]

theorem ovOrder_length (s1 e1 s2 e2 : List Int) :
    (ovOrder s1 e1 s2 e2).length = s1.length + s2.length := by
  unfold ovOrder sortOrderSE
  rw [argLexsort_length, List.length_append]

theorem ovS_length (s1 e1 s2 e2 : List Int) :
    (ovS s1 e1 s2 e2).length = s1.length + s2.length := by
  unfold ovS
  rw [npIndex_length, ovOrder_length]

theorem ovE_length (s1 e1 s2 e2 : List Int) :
    (ovE s1 e1 s2 e2).length = s1.length + s2.length := by
  unfold ovE
  rw [npIndex_length, ovOrder_length]

theorem ovS_sorted (s1 e1 s2 e2 : List Int) :
    (ovS s1 e1 s2 e2).Pairwise (fun a b => a ≤ b) :=
  mergeSortedStarts_pairwise (s1 ++ s2) (e1 ++ e2)

theorem ovS_getD (s1 e1 s2 e2 : List Int) (p : Nat)
    (hp : p < s1.length + s2.length) :
    (ovS s1 e1 s2 e2).getD p 0
      = (s1 ++ s2).getD ((ovOrder s1 e1 s2 e2).getD p 0) 0 := by
  unfold ovS
  exact npIndex_getD _ _ p (by rw [ovOrder_length]; exact hp)

theorem ovE_getD (s1 e1 s2 e2 : List Int) (p : Nat)
    (hp : p < s1.length + s2.length) :
    (ovE s1 e1 s2 e2).getD p 0
      = (e1 ++ e2).getD ((ovOrder s1 e1 s2 e2).getD p 0) 0 := by
  unfold ovE
  exact npIndex_getD _ _ p (by rw [ovOrder_length]; exact hp)

theorem ovI_getD (s1 e1 s2 e2 : List Int) (p : Nat)
    (hp : p < s1.length + s2.length) :
    (ovI s1 e1 s2 e2).getD p 0
      = (overlapSignedIds s1.length s2.length).getD
          ((ovOrder s1 e1 s2 e2).getD p 0) 0 := by
  unfold ovI
  exact npIndex_getD _ _ p (by rw [ovOrder_length]; exact hp)

theorem ovOrder_getD_lt (s1 e1 s2 e2 : List Int) (p : Nat)
    (hp : p < s1.length + s2.length) :
    (ovOrder s1 e1 s2 e2).getD p 0 < s1.length + s2.length := by
  have hlt : p < (ovOrder s1 e1 s2 e2).length := by
    rw [ovOrder_length]
    exact hp
  have hmem : (ovOrder s1 e1 s2 e2).getD p 0 ∈ ovOrder s1 e1 s2 e2 := by
    rw [List.getD_eq_getElem _ 0 hlt]
    exact List.getElem_mem hlt
  have h4 : ∀ u ∈ ovOrder s1 e1 s2 e2, u < s1.length + s2.length := by
    intro u hu
    unfold ovOrder sortOrderSE at hu
    rw [mem_argLexsort, List.length_append] at hu
    exact hu
  exact h4 _ hmem

theorem ovOrder_surj (s1 e1 s2 e2 : List Int) (u : Nat)
    (hu : u < s1.length + s2.length) :
    ∃ p, p < s1.length + s2.length ∧ (ovOrder s1 e1 s2 e2).getD p 0 = u := by
  have hmem : u ∈ ovOrder s1 e1 s2 e2 := by
    unfold ovOrder sortOrderSE
    rw [mem_argLexsort, List.length_append]
    exact hu
  obtain ⟨p, hp, hval⟩ := List.mem_iff_getElem.mp hmem
  refine ⟨p, by rw [ovOrder_length] at hp; exact hp, ?_⟩
  rw [List.getD_eq_getElem?_getD, List.getElem?_eq_getElem hp, Option.getD_some]
  exact hval

theorem ovMatchEnds_length (s1 e1 s2 e2 : List Int) :
    (ovMatchEnds s1 e1 s2 e2).length = s1.length + s2.length := by
  unfold ovMatchEnds
  rw [List.length_map, ovE_length]

theorem ovMatchEnds_getD (s1 e1 s2 e2 : List Int) (p : Nat)
    (hp : p < s1.length + s2.length) :
    (ovMatchEnds s1 e1 s2 e2).getD p 0
      = countLT (ovS s1 e1 s2 e2) ((ovE s1 e1 s2 e2).getD p 0) := by
  unfold ovMatchEnds
  exact getD_map_of_lt _ _ p (by rw [ovE_length]; exact hp) 0 0

theorem ovPF_mem (s1 e1 s2 e2 : List Int) (p m : Nat) :
    (p, m) ∈ ovPF s1 e1 s2 e2 ↔ (p < s1.length + s2.length
      ∧ m = countLT (ovS s1 e1 s2 e2) ((ovE s1 e1 s2 e2).getD p 0)
      ∧ p + 1 < m) := by
  unfold ovPF
  rw [List.mem_filter]
  constructor
  · rintro ⟨hz, hcond⟩
    obtain ⟨k, hk, hval⟩ := List.mem_iff_getElem.mp hz
    have hk2 : k < s1.length + s2.length := by
      rw [List.length_zip, List.length_range, ovMatchEnds_length] at hk
      omega
    rw [List.getElem_zip] at hval
    have h1 : k = p := by
      have := congrArg Prod.fst hval
      simpa [List.getElem_range] using this
    have h2 : (ovMatchEnds s1 e1 s2 e2).getD k 0 = m := by
      have h3 := congrArg Prod.snd hval
      simp only at h3
      rw [← h3, List.getD_eq_getElem?_getD,
        List.getElem?_eq_getElem (by rw [ovMatchEnds_length]; omega : k < (ovMatchEnds s1 e1 s2 e2).length),
        Option.getD_some]
    subst h1
    rw [ovMatchEnds_getD _ _ _ _ k hk2] at h2
    exact ⟨hk2, h2.symm, of_decide_eq_true hcond⟩
  · rintro ⟨h1, h2, h3⟩
    refine ⟨?_, decide_eq_true h3⟩
    apply List.mem_iff_getElem.mpr
    have hzl : p < ((List.range (s1.length + s2.length)).zip
        (ovMatchEnds s1 e1 s2 e2)).length := by
      rw [List.length_zip, List.length_range, ovMatchEnds_length]
      omega
    refine ⟨p, hzl, ?_⟩
    rw [List.getElem_zip]
    have hbm : p < (ovMatchEnds s1 e1 s2 e2).length := by
      rw [ovMatchEnds_length]
      omega
    rw [← List.getD_eq_getElem _ 0 hbm,
      ovMatchEnds_getD _ _ _ _ p h1, List.getElem_range, ← h2]

/-- Membership in the raw Overlap Join rows, phrased over sorted positions:
a row is exactly a pair of sorted positions `p < q` with the start at `q`
strictly below the end at `p`. -/
theorem ovRaw_mem (s1 e1 s2 e2 : List Int) (x y : Int) :
    (x, y) ∈ ovRaw s1 e1 s2 e2 ↔ ∃ p q : Nat,
      p < s1.length + s2.length ∧ q < s1.length + s2.length ∧ p < q
      ∧ (ovS s1 e1 s2 e2).getD q 0 < (ovE s1 e1 s2 e2).getD p 0
      ∧ x = (ovI s1 e1 s2 e2).getD p 0 ∧ y = (ovI s1 e1 s2 e2).getD q 0 := by
  rw [ovRaw_eq, List.mem_flatMap]
  constructor
  · rintro ⟨pm, hpm, hmem⟩
    rw [List.mem_map] at hmem
    obtain ⟨t, ht, hval⟩ := hmem
    rw [List.mem_range] at ht
    have hpm2 : (pm.1, pm.2) ∈ ovPF s1 e1 s2 e2 := by
      rw [Prod.mk.eta]
      exact hpm
    obtain ⟨hp, hm, hself⟩ := (ovPF_mem s1 e1 s2 e2 pm.1 pm.2).mp hpm2
    have hq2 : pm.1 + 1 + t < pm.2 := by
      simp only [Int.ofNat_eq_coe] at ht
      omega
    have hqm : pm.1 + 1 + t < countLT (ovS s1 e1 s2 e2)
        ((ovE s1 e1 s2 e2).getD pm.1 0) := by omega
    have hqn : pm.1 + 1 + t < s1.length + s2.length := by
      have := countLT_le_length (ovS s1 e1 s2 e2) ((ovE s1 e1 s2 e2).getD pm.1 0)
      rw [ovS_length] at this
      omega
    have hslt := (lt_countLT_iff (ovS s1 e1 s2 e2) (ovS_sorted s1 e1 s2 e2)
      ((ovE s1 e1 s2 e2).getD pm.1 0) (pm.1 + 1 + t)
      (by rw [ovS_length]; exact hqn)).mp hqm
    have hx : x = (ovI s1 e1 s2 e2).getD pm.1 0 :=
      (congrArg Prod.fst hval).symm
    have hy : y = (ovI s1 e1 s2 e2).getD (pm.1 + 1 + t) 0 :=
      (congrArg Prod.snd hval).symm
    exact ⟨pm.1, pm.1 + 1 + t, hp, hqn, by omega, hslt, hx, hy⟩
  · rintro ⟨p, q, hp, hq, hpq, hlt, hx, hy⟩
    have hm := (lt_countLT_iff (ovS s1 e1 s2 e2) (ovS_sorted s1 e1 s2 e2)
      ((ovE s1 e1 s2 e2).getD p 0) q (by rw [ovS_length]; exact hq)).mpr hlt
    refine ⟨(p, countLT (ovS s1 e1 s2 e2) ((ovE s1 e1 s2 e2).getD p 0)),
      (ovPF_mem s1 e1 s2 e2 p _).mpr ⟨hp, rfl, by omega⟩, ?_⟩
    rw [List.mem_map]
    refine ⟨q - p - 1, ?_, ?_⟩
    · rw [List.mem_range]
      simp only [Int.ofNat_eq_coe]
      omega
    · rw [show p + 1 + (q - p - 1) = q from by omega, ← hx, ← hy]

/-- The joint sort is lexicographic by `(start, end)`: between sorted
positions `p < q` either the starts strictly increase or they tie and the
ends are nondecreasing. -/
theorem ovOrder_keyfacts (s1 e1 s2 e2 : List Int) (p q : Nat) (hpq : p < q)
    (hq : q < s1.length + s2.length) :
    (ovS s1 e1 s2 e2).getD p 0 < (ovS s1 e1 s2 e2).getD q 0
    ∨ ((ovS s1 e1 s2 e2).getD p 0 = (ovS s1 e1 s2 e2).getD q 0
        ∧ (ovE s1 e1 s2 e2).getD p 0 ≤ (ovE s1 e1 s2 e2).getD q 0) := by
  have hPW := argLexsort_pairwise (s1 ++ s2).length
    (fun u => [(s1 ++ s2).getD u 0, (e1 ++ e2).getD u 0]) (fun _ _ => rfl)
  have hlen_arg : (argLexsort (s1 ++ s2).length
      (fun u => [(s1 ++ s2).getD u 0, (e1 ++ e2).getD u 0])).length
      = s1.length + s2.length := by
    rw [argLexsort_length, List.length_append]
  have hbp : p < (argLexsort (s1 ++ s2).length
      (fun u => [(s1 ++ s2).getD u 0, (e1 ++ e2).getD u 0])).length := by
    rw [hlen_arg]
    omega
  have hbq : q < (argLexsort (s1 ++ s2).length
      (fun u => [(s1 ++ s2).getD u 0, (e1 ++ e2).getD u 0])).length := by
    rw [hlen_arg]
    omega
  have hkey := (List.pairwise_iff_getElem.mp hPW) p q hbp hbq hpq
  rw [← List.getD_eq_getElem _ 0 hbp, ← List.getD_eq_getElem _ 0 hbq] at hkey
  have hup : (argLexsort (s1 ++ s2).length
      (fun u => [(s1 ++ s2).getD u 0, (e1 ++ e2).getD u 0])).getD p 0
      = (ovOrder s1 e1 s2 e2).getD p 0 := rfl
  have huq : (argLexsort (s1 ++ s2).length
      (fun u => [(s1 ++ s2).getD u 0, (e1 ++ e2).getD u 0])).getD q 0
      = (ovOrder s1 e1 s2 e2).getD q 0 := rfl
  rw [hup, huq] at hkey
  rw [ovS_getD s1 e1 s2 e2 p (by omega), ovS_getD s1 e1 s2 e2 q hq,
    ovE_getD s1 e1 s2 e2 p (by omega), ovE_getD s1 e1 s2 e2 q hq]
  rcases hkey with hlt | ⟨heq, _⟩
  · rcases (lexLTb_pair _ _ _ _).mp hlt with h | ⟨h1, h2⟩
    · exact Or.inl h
    · exact Or.inr ⟨h1, le_of_lt h2⟩
  · have h1 := congrArg (fun l => l.getD 0 0) heq
    have h2 := congrArg (fun l => l.getD 1 0) heq
    simp only [List.getD_cons_zero, List.getD_cons_succ] at h1 h2
    exact Or.inr ⟨h1, le_of_eq h2⟩

/-- Every sorted position decodes to an original interval of set 1 (negative
signed id) or of set 2 (positive signed id), with its start and end. -/
theorem ovI_decode (s1 e1 s2 e2 : List Int) (p : Nat)
    (hp : p < s1.length + s2.length)
    (hlen1 : s1.length = e1.length) (hlen2 : s2.length = e2.length) :
    (∃ i : Nat, i < s1.length
      ∧ (ovI s1 e1 s2 e2).getD p 0 = -(Int.ofNat i + 1)
      ∧ (ovS s1 e1 s2 e2).getD p 0 = s1.getD i 0
      ∧ (ovE s1 e1 s2 e2).getD p 0 = e1.getD i 0)
    ∨ (∃ j : Nat, j < s2.length
      ∧ (ovI s1 e1 s2 e2).getD p 0 = Int.ofNat j + 1
      ∧ (ovS s1 e1 s2 e2).getD p 0 = s2.getD j 0
      ∧ (ovE s1 e1 s2 e2).getD p 0 = e2.getD j 0) := by
  have hu : (ovOrder s1 e1 s2 e2).getD p 0 < s1.length + s2.length :=
    ovOrder_getD_lt s1 e1 s2 e2 p hp
  rw [ovI_getD s1 e1 s2 e2 p hp, ovS_getD s1 e1 s2 e2 p hp,
    ovE_getD s1 e1 s2 e2 p hp]
  by_cases hcase : (ovOrder s1 e1 s2 e2).getD p 0 < s1.length
  · left
    refine ⟨(ovOrder s1 e1 s2 e2).getD p 0, hcase,
      overlapSignedIds_getD_lt _ _ _ hcase,
      getD_append_of_lt _ _ _ hcase 0,
      getD_append_of_lt _ _ _ (by omega) 0⟩
  · right
    refine ⟨(ovOrder s1 e1 s2 e2).getD p 0 - s1.length, by omega,
      overlapSignedIds_getD_ge _ _ _ (by omega) hu, ?_, ?_⟩
    · have h3 := getD_append_right s1 s2
        ((ovOrder s1 e1 s2 e2).getD p 0 - s1.length) 0
      rw [show s1.length + ((ovOrder s1 e1 s2 e2).getD p 0 - s1.length)
        = (ovOrder s1 e1 s2 e2).getD p 0 from by omega] at h3
      exact h3
    · have h3 := getD_append_right e1 e2
        ((ovOrder s1 e1 s2 e2).getD p 0 - s1.length) 0
      rw [show e1.length + ((ovOrder s1 e1 s2 e2).getD p 0 - s1.length)
        = (ovOrder s1 e1 s2 e2).getD p 0 from by omega] at h3
      exact h3

theorem ovDec_mem (s1 e1 s2 e2 : List Int) (r : Int × Int) :
    r ∈ ovDec s1 e1 s2 e2 ↔ ∃ x y : Int, (x, y) ∈ ovRaw s1 e1 s2 e2
      ∧ x * y ≤ 0
      ∧ r = (if x ≤ y then (x * (-1) - 1, y - 1) else (y * (-1) - 1, x - 1)) := by
  unfold ovDec ovKept
  rw [List.mem_map]
  constructor
  · rintro ⟨fl, hfl, hr⟩
    rw [List.mem_map] at hfl
    obtain ⟨pr, hpr, hfl2⟩ := hfl
    rw [List.mem_filter] at hpr
    obtain ⟨hraw, hcond⟩ := hpr
    refine ⟨pr.1, pr.2, by rw [Prod.mk.eta]; exact hraw,
      of_decide_eq_true hcond, ?_⟩
    rw [← hr, ← hfl2]
    by_cases hc : pr.1 ≤ pr.2
    · rw [if_pos hc, if_pos hc]
    · rw [if_neg hc, if_neg hc]
  · rintro ⟨x, y, hraw, hcond, hr⟩
    refine ⟨if x ≤ y then (x, y) else (y, x), ?_, ?_⟩
    · rw [List.mem_map]
      refine ⟨(x, y), List.mem_filter.mpr ⟨hraw, decide_eq_true hcond⟩, ?_⟩
      by_cases hc : x ≤ y
      · rw [if_pos hc]
      · rw [if_neg hc]
    · rw [hr]
      by_cases hc : x ≤ y
      · rw [if_pos hc, if_pos hc]
      · rw [if_neg hc, if_neg hc]

theorem overlap_perm (s1 e1 s2 e2 : List Int) :
    (overlap_intervals s1 e1 s2 e2).Perm (ovDec s1 e1 s2 e2) := by
  rw [overlap_intervals_eq]
  unfold npIndexPair
  have hr : (List.range (ovDec s1 e1 s2 e2).length).map
      (fun i => (ovDec s1 e1 s2 e2).getD i (0, 0)) = ovDec s1 e1 s2 e2 := by
    apply List.ext_getElem
    · rw [List.length_map, List.length_range]
    · intro i h1 h2
      rw [List.getElem_map, List.getElem_range, List.getD_eq_getElem _ (0, 0) h2]
  conv_rhs => rw [← hr]
  exact (argLexsort_perm _ _).map _

theorem overlap_sorted (s1 e1 s2 e2 : List Int) :
    (overlap_intervals s1 e1 s2 e2).Pairwise pairLexLE := by
  rw [overlap_intervals_eq]
  unfold npIndexPair
  have hP := argLexsort_pairwise (ovDec s1 e1 s2 e2).length
    (fun r => [((ovDec s1 e1 s2 e2).getD r (0, 0)).1,
               ((ovDec s1 e1 s2 e2).getD r (0, 0)).2]) (fun _ _ => rfl)
  refine List.Pairwise.map _ (fun u v huv => ?_) hP
  rcases huv with hlt | ⟨heq, _⟩
  · rcases (lexLTb_pair _ _ _ _).mp hlt with h | ⟨h1, h2⟩
    · exact Or.inl h
    · exact Or.inr ⟨h1, le_of_lt h2⟩
  · have h1 := congrArg (fun l => l.getD 0 0) heq
    have h2 := congrArg (fun l => l.getD 1 0) heq
    simp only [List.getD_cons_zero, List.getD_cons_succ] at h1 h2
    exact Or.inr ⟨h1, le_of_eq h2⟩

/-- The membership characterization of the Overlap Join on well-formed
parallel inputs: every output row decodes to a strictly overlapping pair of
original indices, and every strictly overlapping pair of original indices
appears. -/
theorem overlap_master (s1 e1 s2 e2 : List Int)
    (hlen1 : s1.length = e1.length) (hlen2 : s2.length = e2.length)
    (hwf1 : ∀ p ∈ s1.zip e1, p.1 ≤ p.2) (hwf2 : ∀ p ∈ s2.zip e2, p.1 ≤ p.2) :
    (∀ r ∈ overlap_intervals s1 e1 s2 e2, ∃ i j : Nat,
        i < s1.length ∧ j < s2.length ∧ r = (Int.ofNat i, Int.ofNat j)
        ∧ s1.getD i 0 < e2.getD j 0 ∧ s2.getD j 0 < e1.getD i 0)
    ∧ (∀ i j : Nat, i < s1.length → j < s2.length →
        s1.getD i 0 < e2.getD j 0 → s2.getD j 0 < e1.getD i 0 →
        (Int.ofNat i, Int.ofNat j) ∈ overlap_intervals s1 e1 s2 e2) := by
  have hperm := overlap_perm s1 e1 s2 e2
  constructor
  · intro r hr
    have hrd : r ∈ ovDec s1 e1 s2 e2 := hperm.subset hr
    obtain ⟨x, y, hraw, hprod, hr2⟩ := (ovDec_mem s1 e1 s2 e2 r).mp hrd
    obtain ⟨p, q, hp, hq, hpq, hlt, hx, hy⟩ := (ovRaw_mem s1 e1 s2 e2 x y).mp hraw
    rcases ovI_decode s1 e1 s2 e2 p hp hlen1 hlen2 with
      ⟨i, hi, hIp, hSp, hEp⟩ | ⟨j, hj, hIp, hSp, hEp⟩
    · rcases ovI_decode s1 e1 s2 e2 q hq hlen1 hlen2 with
        ⟨i2, hi2, hIq, _, _⟩ | ⟨j2, hj2, hIq, hSq, hEq2⟩
      · exfalso
        have hx2 : x = -(Int.ofNat i + 1) := hx.trans hIp
        have hy2 : y = -(Int.ofNat i2 + 1) := hy.trans hIq
        rw [hx2, hy2, neg_mul_neg] at hprod
        have ha : (0:Int) < Int.ofNat i + 1 := by
          simp only [Int.ofNat_eq_coe]
          omega
        have hb : (0:Int) < Int.ofNat i2 + 1 := by
          simp only [Int.ofNat_eq_coe]
          omega
        have := mul_pos ha hb
        linarith
      · have hx2 : x = -(Int.ofNat i + 1) := hx.trans hIp
        have hy2 : y = Int.ofNat j2 + 1 := hy.trans hIq
        have hcrit2 : s2.getD j2 0 < e1.getD i 0 := by
          rw [hSq, hEp] at hlt
          exact hlt
        have hcrit1 : s1.getD i 0 < e2.getD j2 0 := by
          rcases ovOrder_keyfacts s1 e1 s2 e2 p q hpq hq with h | ⟨h1, h2⟩
          · rw [hSp, hSq] at h
            exact lt_of_lt_of_le h (zip_wf_getD s2 e2 hlen2 hwf2 j2 hj2)
          · have h3 : s1.getD i 0 < e1.getD i 0 := by
              rw [← hSp, ← hEp, h1]
              exact hlt
            rw [hEp, hEq2] at h2
            exact lt_of_lt_of_le h3 h2
        have hxy : x ≤ y := by
          rw [hx2, hy2]
          simp only [Int.ofNat_eq_coe]
          omega
        rw [if_pos hxy] at hr2
        have hc1 : x * (-1) - 1 = Int.ofNat i := by
          rw [hx2]
          simp only [Int.ofNat_eq_coe]
          ring
        have hc2 : y - 1 = Int.ofNat j2 := by
          rw [hy2]
          ring
        rw [hc1, hc2] at hr2
        exact ⟨i, j2, hi, hj2, hr2, hcrit1, hcrit2⟩
    · rcases ovI_decode s1 e1 s2 e2 q hq hlen1 hlen2 with
        ⟨i2, hi2, hIq, hSq, hEq2⟩ | ⟨j2, hj2, hIq, _, _⟩
      · have hx2 : x = Int.ofNat j + 1 := hx.trans hIp
        have hy2 : y = -(Int.ofNat i2 + 1) := hy.trans hIq
        have hcrit1 : s1.getD i2 0 < e2.getD j 0 := by
          rw [hSq, hEp] at hlt
          exact hlt
        have hcrit2 : s2.getD j 0 < e1.getD i2 0 := by
          rcases ovOrder_keyfacts s1 e1 s2 e2 p q hpq hq with h | ⟨h1, h2⟩
          · rw [hSp, hSq] at h
            exact lt_of_lt_of_le h (zip_wf_getD s1 e1 hlen1 hwf1 i2 hi2)
          · have h3 : s2.getD j 0 < e2.getD j 0 := by
              rw [← hSp, ← hEp, h1]
              exact hlt
            rw [hEp, hEq2] at h2
            exact lt_of_lt_of_le h3 h2
        have hxy : ¬ (x ≤ y) := by
          rw [hx2, hy2]
          simp only [Int.ofNat_eq_coe]
          omega
        rw [if_neg hxy] at hr2
        have hc1 : y * (-1) - 1 = Int.ofNat i2 := by
          rw [hy2]
          simp only [Int.ofNat_eq_coe]
          ring
        have hc2 : x - 1 = Int.ofNat j := by
          rw [hx2]
          ring
        rw [hc1, hc2] at hr2
        exact ⟨i2, j, hi2, hj, hr2, hcrit1, hcrit2⟩
      · exfalso
        have hx2 : x = Int.ofNat j + 1 := hx.trans hIp
        have hy2 : y = Int.ofNat j2 + 1 := hy.trans hIq
        rw [hx2, hy2] at hprod
        have ha : (0:Int) < Int.ofNat j + 1 := by
          simp only [Int.ofNat_eq_coe]
          omega
        have hb : (0:Int) < Int.ofNat j2 + 1 := by
          simp only [Int.ofNat_eq_coe]
          omega
        have := mul_pos ha hb
        linarith
  · intro i j hi hj hc1 hc2
    obtain ⟨p, hpn, hpu⟩ := ovOrder_surj s1 e1 s2 e2 i (by omega)
    obtain ⟨q, hqn, hqu⟩ := ovOrder_surj s1 e1 s2 e2 (s1.length + j) (by omega)
    have hIp : (ovI s1 e1 s2 e2).getD p 0 = -(Int.ofNat i + 1) := by
      rw [ovI_getD s1 e1 s2 e2 p hpn, hpu]
      exact overlapSignedIds_getD_lt _ _ _ hi
    have hSp : (ovS s1 e1 s2 e2).getD p 0 = s1.getD i 0 := by
      rw [ovS_getD s1 e1 s2 e2 p hpn, hpu]
      exact getD_append_of_lt _ _ _ hi 0
    have hEp : (ovE s1 e1 s2 e2).getD p 0 = e1.getD i 0 := by
      rw [ovE_getD s1 e1 s2 e2 p hpn, hpu]
      exact getD_append_of_lt _ _ _ (by omega) 0
    have hIq : (ovI s1 e1 s2 e2).getD q 0 = Int.ofNat j + 1 := by
      rw [ovI_getD s1 e1 s2 e2 q hqn, hqu]
      have h4 := overlapSignedIds_getD_ge s1.length s2.length (s1.length + j)
        (by omega) (by omega)
      rw [show s1.length + j - s1.length = j from by omega] at h4
      exact h4
    have hSq : (ovS s1 e1 s2 e2).getD q 0 = s2.getD j 0 := by
      rw [ovS_getD s1 e1 s2 e2 q hqn, hqu]
      exact getD_append_right s1 s2 j 0
    have hEq2 : (ovE s1 e1 s2 e2).getD q 0 = e2.getD j 0 := by
      rw [ovE_getD s1 e1 s2 e2 q hqn, hqu,
        show s1.length + j = e1.length + j from by omega]
      exact getD_append_right e1 e2 j 0
    have hprod : -(Int.ofNat i + 1) * (Int.ofNat j + 1) ≤ 0 := by
      have ha : (0:Int) < Int.ofNat i + 1 := by
        simp only [Int.ofNat_eq_coe]
        omega
      have hb : (0:Int) < Int.ofNat j + 1 := by
        simp only [Int.ofNat_eq_coe]
        omega
      rw [neg_mul]
      exact neg_nonpos_of_nonneg (le_of_lt (mul_pos ha hb))
    have hne : p ≠ q := by
      intro he
      rw [he, hqu] at hpu
      omega
    rcases Nat.lt_or_ge p q with hpq | hge
    · have hmemraw : (-(Int.ofNat i + 1), Int.ofNat j + 1) ∈ ovRaw s1 e1 s2 e2 :=
        (ovRaw_mem s1 e1 s2 e2 _ _).mpr ⟨p, q, hpn, hqn, hpq,
          (by rw [hSq, hEp]; exact hc2), hIp.symm, hIq.symm⟩
      apply hperm.mem_iff.mpr
      apply (ovDec_mem s1 e1 s2 e2 _).mpr
      refine ⟨-(Int.ofNat i + 1), Int.ofNat j + 1, hmemraw, hprod, ?_⟩
      have hxy : -(Int.ofNat i + 1) ≤ Int.ofNat j + 1 := by
        simp only [Int.ofNat_eq_coe]
        omega
      rw [if_pos hxy,
        show -(Int.ofNat i + 1) * (-1) - 1 = Int.ofNat i from by
          simp only [Int.ofNat_eq_coe]
          ring,
        show (Int.ofNat j + 1) - 1 = Int.ofNat j from by ring]
    · have hqp : q < p := by omega
      have hmemraw : (Int.ofNat j + 1, -(Int.ofNat i + 1)) ∈ ovRaw s1 e1 s2 e2 :=
        (ovRaw_mem s1 e1 s2 e2 _ _).mpr ⟨q, p, hqn, hpn, hqp,
          (by rw [hSp, hEq2]; exact hc1), hIq.symm, hIp.symm⟩
      apply hperm.mem_iff.mpr
      apply (ovDec_mem s1 e1 s2 e2 _).mpr
      refine ⟨Int.ofNat j + 1, -(Int.ofNat i + 1), hmemraw, ?_, ?_⟩
      · rw [mul_comm]
        exact hprod
      · have hxy : ¬ (Int.ofNat j + 1 ≤ -(Int.ofNat i + 1)) := by
          simp only [Int.ofNat_eq_coe]
          omega
        rw [if_neg hxy,
          show -(Int.ofNat i + 1) * (-1) - 1 = Int.ofNat i from by
            simp only [Int.ofNat_eq_coe]
            ring,
          show (Int.ofNat j + 1) - 1 = Int.ofNat j from by ring]

/-- C3: for well-formed parallel inputs (`end >= start`), a pair `(i, j)`
appears in the Overlap Join output iff `start1[i] < end2[j]` and
`start2[j] < end1[i]`; every output row is such a pair of a set-1 index and
a set-2 index (so no same-set and no self pairs), and the output is sorted
ascending by `(id1, id2)`. -/
theorem C3_overlap_join (s1 e1 s2 e2 : List Int)
    (hlen1 : s1.length = e1.length) (hlen2 : s2.length = e2.length)
    (hwf1 : ∀ p ∈ s1.zip e1, p.1 ≤ p.2) (hwf2 : ∀ p ∈ s2.zip e2, p.1 ≤ p.2) :
    (∀ i j : Nat, i < s1.length → j < s2.length →
      ((Int.ofNat i, Int.ofNat j) ∈ overlap_intervals s1 e1 s2 e2 ↔
        (s1.getD i 0 < e2.getD j 0 ∧ s2.getD j 0 < e1.getD i 0)))
    ∧ (∀ r ∈ overlap_intervals s1 e1 s2 e2, ∃ i j : Nat,
        i < s1.length ∧ j < s2.length ∧ r = (Int.ofNat i, Int.ofNat j))
    ∧ (overlap_intervals s1 e1 s2 e2).Pairwise pairLexLE := by
  obtain ⟨hfwd, hbwd⟩ := overlap_master s1 e1 s2 e2 hlen1 hlen2 hwf1 hwf2
  refine ⟨?_, ?_, overlap_sorted s1 e1 s2 e2⟩
  · intro i j hi hj
    constructor
    · intro hmem
      obtain ⟨i2, j2, _, _, heq, hcrit1, hcrit2⟩ := hfwd _ hmem
      have hij : i = i2 ∧ j = j2 := by
        have h1 := congrArg Prod.fst heq
        have h2 := congrArg Prod.snd heq
        simp only [Int.ofNat_eq_coe] at h1 h2
        omega
      rw [hij.1, hij.2]
      exact ⟨hcrit1, hcrit2⟩
    · rintro ⟨h1, h2⟩
      exact hbwd i j hi hj h1 h2
  · intro r hr
    obtain ⟨i, j, hi, hj, heq, _, _⟩ := hfwd r hr
    exact ⟨i, j, hi, hj, heq⟩

theorem C3_overlap_join_witness :
    (∀ i j : Nat, i < [(1:Int)].length → j < [(0:Int), 4].length →
      ((Int.ofNat i, Int.ofNat j) ∈ overlap_intervals [1] [5] [0, 4] [2, 6] ↔
        (List.getD [(1:Int)] i 0 < List.getD [(2:Int), 6] j 0
          ∧ List.getD [(0:Int), 4] j 0 < List.getD [(5:Int)] i 0)))
    ∧ (∀ r ∈ overlap_intervals [1] [5] [0, 4] [2, 6], ∃ i j : Nat,
        i < [(1:Int)].length ∧ j < [(0:Int), 4].length
          ∧ r = (Int.ofNat i, Int.ofNat j))
    ∧ (overlap_intervals [1] [5] [0, 4] [2, 6]).Pairwise pairLexLE :=
  C3_overlap_join [1] [5] [0, 4] [2, 6] (by decide) (by decide)
    (by decide) (by decide)

end Arrops
